import Mathlib

/-!
Verification of the adaptive trie fuzzy search engine
(`backend/storage/trie_fuzzy_search.py`, class `AdaptiveTrieFuzzySearch`).

Python strings are modelled as `List Char` (`str.lower` as the
character-wise `Char.toLower`), record ids as `Int`, Python `set`s of ids as
lists with insertion-order deduplication (`addId`), Python `dict`s as
association lists in insertion order, and `datetime` values as an integer
encoding that preserves the chronological order of dates.  Floats appearing
in size filters are modelled as `ℚ` (every value produced by the parser is
an exact decimal).  A Python function that can raise is modelled as an
`Option`-valued function (`none` = exception).  Python `set` iteration
order is unspecified, so theorems about set-valued results only ever speak
about membership, never about order or multiplicity.
-/

namespace TrieSpec

/-! # Definitions -/

/-- Python `str.lower`, character-wise. -/
def lowerStr (s : List Char) : List Char := s.map Char.toLower

/-- Characters matched by the regex class `\w` (ASCII fragment). -/
def wordChar (c : Char) : Bool := c.isAlphanum || c = '_'

/-- Characters treated as whitespace by Python's `str.split` / `str.strip`. -/
def pySpace (c : Char) : Bool :=
  c = ' ' || c = '\t' || c = '\n' || c = '\r' || c = '\x0b' || c = '\x0c'

/-- Python `str.strip()`. -/
def pyStrip (s : List Char) : List Char :=
  ((s.dropWhile pySpace).reverse.dropWhile pySpace).reverse

/-- Helper for `pySplit`: `cur` is the (reversed) current run of
non-whitespace characters. -/
def pySplitAux : List Char → List Char → List (List Char)
  | cur, [] => if cur.isEmpty then [] else [cur.reverse]
  | cur, c :: rest =>
    if pySpace c then
      if cur.isEmpty then pySplitAux [] rest
      else cur.reverse :: pySplitAux [] rest
    else pySplitAux (c :: cur) rest

/-- Python `str.split()`: split on whitespace runs, dropping empty pieces. -/
def pySplit (s : List Char) : List (List Char) := pySplitAux [] s

/-- Python `str.replace(old, "")`: deletes every non-overlapping occurrence
of `pat`, scanning left to right.  `pat` is assumed nonempty - the parser
only ever substitutes matched tokens. -/
def replaceDel : List Char → List Char → List Char
  | [], _ => []
  | c :: rest, pat =>
    if h : pat ≠ [] ∧ pat.isPrefixOf (c :: rest) then
      replaceDel ((c :: rest).drop pat.length) pat
    else
      c :: replaceDel rest pat
termination_by s _ => s.length
decreasing_by
  · obtain ⟨h1, _⟩ := h
    have : 0 < pat.length := List.length_pos.mpr h1
    simp only [List.length_drop, List.length_cons]
    omega
  · simp only [List.length_cons]
    omega

/-- Python substring test `needle in hay`. -/
def inStr (needle : List Char) : List Char → Bool
  | [] => needle.isEmpty
  | c :: rest => needle.isPrefixOf (c :: rest) || inStr needle rest

/-- Insert an id into a set-of-ids modelled as a duplicate-free list
(Python `set.add` / the `if file_id not in ...` guard in `insert_word`). -/
def addId (l : List Int) (id : Int) : List Int :=
  if id ∈ l then l else l ++ [id]

/-- Python `set.update(refs)`. -/
def addIds (l : List Int) (refs : List Int) : List Int := refs.foldl addId l

/-!  ## The reference Levenshtein distance

`levD` is the textbook edit distance (unit costs for insertion, deletion and
substitution); the bridge `levD_eq_mathlib` below identifies it with
Mathlib's `levenshtein` at the default cost structure. -/

/-- Reference (unbounded) Levenshtein distance. -/
def levD : List Char → List Char → Nat
  | [], b => b.length
  | a :: as, [] => (a :: as).length
  | a :: as, b :: bs =>
    min (1 + levD as (b :: bs))
      (min (1 + levD (a :: as) bs) ((if a = b then 0 else 1) + levD as bs))
termination_by a b => a.length + b.length
decreasing_by all_goals (simp only [List.length_cons] <;> omega)

/-!  ## `AdaptiveTrieFuzzySearch.levenshtein_distance`

The bounded DP with the two early exits of the source: the length
short-circuit and the per-row minimum cutoff. -/

/-- Inner loop of the DP (`for j, c2 in enumerate(s2)`): given the remaining
characters of `s2`, the window of `previous_row` starting at index `j`, and
the last value appended to `current_row`, produce the rest of
`current_row`.  `insertions = previous_row[j+1] + 1`,
`deletions = current_row[j] + 1`,
`substitutions = previous_row[j] + (c1 != c2)`. -/
def rowAux (c1 : Char) : List Char → List Nat → Nat → List Nat
  | c2 :: cs, p0 :: p1 :: ps, last =>
    let v := min (p1 + 1) (min (last + 1) (p0 + (if c1 = c2 then 0 else 1)))
    v :: rowAux c1 cs (p1 :: ps) v
  | _, _, _ => []

/-- Outer loop of the DP (`for i, c1 in enumerate(s1)`) with the early
termination `if min_in_row > max_distance: return max_distance + 1`;
at the end returns `previous_row[-1]`. -/
def levLoop (s2 : List Char) (maxd : Nat) : List Char → Nat → List Nat → Nat
  | [], _, prev => prev.getLastD 0
  | c1 :: rest, i, prev =>
    let cur := (i + 1) :: rowAux c1 s2 prev (i + 1)
    if maxd < cur.foldl min (i + 1) then maxd + 1
    else levLoop s2 maxd rest (i + 1) cur

/-- The part of `levenshtein_distance` after the argument swap
(`if len(s1) < len(s2): s1, s2 = s2, s1`): the `len(s2) == 0` shortcut and
the row loop seeded with `previous_row = range(len(s2) + 1)`. -/
def levCore (s1 s2 : List Char) (maxd : Nat) : Nat :=
  if s2.length = 0 then s1.length
  else levLoop s2 maxd s1 0 (List.range (s2.length + 1))

/-- `AdaptiveTrieFuzzySearch.levenshtein_distance(s1, s2, max_distance)`. -/
def levenshtein_distance (s1 s2 : List Char) (max_distance : Nat) : Nat :=
  if max_distance < Nat.dist s1.length s2.length then max_distance + 1
  else if s1.length < s2.length then levCore s2 s1 max_distance
  else levCore s1 s2 max_distance

/-- The rows of the prefix DP table: `prefRow p E b` lists
`levD p (E ++ q)` for every prefix `q` of `b`, in order.  The row computed
by the source after consuming `p` of `s1` is `prefRow p [] s2`. -/
def prefRow (p E : List Char) : List Char → List Nat
  | [] => [levD p E]
  | c :: cs => levD p E :: prefRow p (E ++ [c]) cs

/-!  ## `TrieNode` and the trie operations

`TrieNode.children` is a Python dict, modelled as an association list in
insertion order; `file_references` is maintained duplicate-free by
`insert_word`'s membership guard.  `collectFiles` models the set-union
subtree traversal of `exact_prefix_search`: since the source returns
`list(set)` (arbitrary order), theorems about it only use membership. -/

/-- `TrieNode`: children dict, `is_end_of_word`, `file_references`,
`frequency`. -/
inductive Trie where
  | mk : List (Char × Trie) → Bool → List Int → Nat → Trie

/-- The `children` dict of a node. -/
def Trie.children : Trie → List (Char × Trie)
  | .mk cs _ _ _ => cs

/-- The `is_end_of_word` flag of a node. -/
def Trie.is_end_of_word : Trie → Bool
  | .mk _ e _ _ => e

/-- The `file_references` posting list of a node. -/
def Trie.file_references : Trie → List Int
  | .mk _ _ r _ => r

/-- The `frequency` counter of a node. -/
def Trie.frequency : Trie → Nat
  | .mk _ _ _ f => f

/-- `TrieNode()`: a fresh node. -/
def emptyNode : Trie := .mk [] false [] 0

/-- Dict lookup `node.children[char]` (`char in node.children`). -/
def lookupChild : List (Char × Trie) → Char → Option Trie
  | [], _ => none
  | (c, t) :: rest, d => if c = d then some t else lookupChild rest d

/-- Dict update `node.children[char] = value`: replaces in place, or appends
at the end for a new key (Python dicts preserve insertion order). -/
def setChild : List (Char × Trie) → Char → Trie → List (Char × Trie)
  | [], d, u => [(d, u)]
  | (c, t) :: rest, d, u =>
    if c = d then (d, u) :: rest else (c, t) :: setChild rest d u

/-- The loop body of `insert_word`: walks/creates one node per character;
on each visited child increments `frequency` and adds `file_id` to
`file_references` if absent; marks the last node `is_end_of_word`. -/
def insertAux : List Char → Int → Trie → Trie
  | [], _, .mk cs _ r f => .mk cs true r f
  | c :: w, id, .mk cs e r f =>
    let child0 := (lookupChild cs c).getD emptyNode
    let child1 := Trie.mk child0.children child0.is_end_of_word
      (addId child0.file_references id) (child0.frequency + 1)
    .mk (setChild cs c (insertAux w id child1)) e r f

/-- `AdaptiveTrieFuzzySearch.insert_word(word, file_id)` (lowercases the
word first). -/
def insert_word (t : Trie) (w : List Char) (id : Int) : Trie :=
  insertAux (lowerStr w) id t

/-- The walk loop of `exact_prefix_search`: follow the characters of `p`
from `t`; `none` when some character is missing. -/
def walkTrie : Trie → List Char → Option Trie
  | t, [] => some t
  | t, c :: p => (lookupChild t.children c).bind (fun u => walkTrie u p)

mutual

/-- The `collect_files` closure of `exact_prefix_search`: union of
`file_references` over the whole subtree (set union modelled as
concatenation; only membership is ever used). -/
def collectFiles : Trie → List Int
  | .mk cs _ r _ => r ++ collectList cs

/-- `collectFiles` folded over a children list. -/
def collectList : List (Char × Trie) → List Int
  | [] => []
  | (_, t) :: rest => collectFiles t ++ collectList rest

end

/-- `AdaptiveTrieFuzzySearch.exact_prefix_search(prefix)` (lowercases the
query first; empty result when the walk fails). -/
def exact_prefix_search (t : Trie) (pre : List Char) : List Int :=
  match walkTrie t (lowerStr pre) with
  | none => []
  | some n => collectFiles n

mutual

/-- The recursive `dfs` of `fuzzy_search_trie`: `w` is `current_word`,
`dist` the distance passed by the parent, `acc` the result set so far. -/
def dfsFuzzy (pre : List Char) (maxd : Nat) : Trie → List Char → Nat → List Int → List Int
  | .mk cs _ r _, w, dist, acc =>
    if maxd < dist then acc
    else
      let cd := levenshtein_distance w (pre.take w.length) maxd
      let acc1 := if pre.length ≤ w.length ∧ cd ≤ maxd
        then addIds acc r else acc
      if cd ≤ maxd ∨ w.length < pre.length
      then dfsChildren pre maxd cs w cd acc1
      else acc1

/-- `for char, child_node in node.children.items(): dfs(child_node, ...)`. -/
def dfsChildren (pre : List Char) (maxd : Nat) : List (Char × Trie) → List Char → Nat → List Int → List Int
  | [], _, _, acc => acc
  | (c, u) :: rest, w, cd, acc =>
    dfsChildren pre maxd rest w cd (dfsFuzzy pre maxd u (w ++ [c]) cd acc)

end

/-- `AdaptiveTrieFuzzySearch.fuzzy_search_trie(prefix, max_distance)`. -/
def fuzzy_search_trie (t : Trie) (pre : List Char) (maxd : Nat) : List Int :=
  dfsFuzzy (lowerStr pre) maxd t [] 0 []

mutual

/-- Union of the postings of all nodes at depth `1..n` below `t`
(used to characterize `fuzzy_search_trie` on the empty prefix). -/
def collectUpTo : Nat → Trie → List Int
  | 0, _ => []
  | n + 1, .mk cs _ _ _ => collectUpToList n cs

/-- `collectUpTo` folded over a children list: each child contributes its
own postings and its subtree up to depth `n` below it. -/
def collectUpToList : Nat → List (Char × Trie) → List Int
  | _, [] => []
  | n, (_, u) :: rest =>
    (u.file_references ++ collectUpTo n u) ++ collectUpToList n rest

end

mutual

/-- Forget all `frequency` counters (for stating structural idempotence
of re-insertion). -/
def eraseFreq : Trie → Trie
  | .mk cs e r _ => .mk (eraseFreqList cs) e r 0

/-- `eraseFreq` mapped over a children list. -/
def eraseFreqList : List (Char × Trie) → List (Char × Trie)
  | [] => []
  | (c, u) :: rest => (c, eraseFreq u) :: eraseFreqList rest

end

/-!  ## Records, filters, and the query parser -/

/-- The candidate tags of `search` (`'exact'`, `'semantic'`, `'fuzzy'`,
`'filter'`).  The score table also holds a `'prefix': 80` entry, but
`search` never produces that tag, so it is not needed here. -/
inductive MatchType where
  | exact
  | semantic
  | fuzzy
  | filterOnly
deriving DecidableEq, Repr

/-- `match_scores.get(match_type, 30)` in `calculate_score`. -/
def baseScore : MatchType → Int
  | .exact => 100
  | .semantic => 40
  | .fuzzy => 60
  | .filterOnly => 30

/-- The fields of an indexed `file_data` dict that the engine ever reads.
A missing key is modelled by the neutral value the code's `.get` calls
produce (`''`, `None`, `[]`). -/
structure FileData where
  name : List Char
  type : List Char
  size : Int
  uploaded_at : Option (List Char)
  tags : List (List Char)
  extension : List Char
deriving DecidableEq, Repr

/-- One `user_interactions` entry. -/
structure InteractionRec where
  view_count : Nat
  download_count : Nat
  search_selections : Nat
  last_accessed : Option Int
  search_queries : List (List Char)
deriving DecidableEq, Repr

/-- The defaultdict initializer of `user_interactions`. -/
def defaultInteraction : InteractionRec :=
  { view_count := 0, download_count := 0, search_selections := 0,
    last_accessed := none, search_queries := [] }

/-- The dict built by `parse_advanced_filters`. -/
structure Filters where
  type : Option (List Char)
  size_min : Option ℚ
  size_max : Option ℚ
  date_from : Option Int
  date_to : Option Int
  extension : Option (List Char)
  search_terms : List (List Char)
deriving DecidableEq, Repr

/-- Case-insensitive literal match at the start of `s` (`lit` is given in
lowercase; models `re.IGNORECASE` on ASCII literals). -/
def ciStarts : List Char → List Char → Bool
  | [], _ => true
  | _ :: _, [] => false
  | l :: ls, c :: cs => (Char.toLower c = l) && ciStarts ls cs

/-- Value of a digit string. -/
def digitsToNat (ds : List Char) : Nat :=
  ds.foldl (fun a c => a * 10 + (c.toNat - 48)) 0

/-- Exactly `n` digits at the start of `s` (for `\d{n}` in the date
pattern): their value and the remainder. -/
def matchDigits (n : Nat) (s : List Char) : Option (Nat × List Char) :=
  if (s.take n).length = n ∧ (s.take n).all Char.isDigit
  then some (digitsToNat (s.take n), s.drop n) else none

/-- `\d+\.?\d*`: matched characters and remainder. -/
def matchNumber (s : List Char) : Option (List Char × List Char) :=
  let d1 := s.takeWhile Char.isDigit
  if d1.isEmpty then none
  else
    match s.dropWhile Char.isDigit with
    | '.' :: r2 =>
      some (d1 ++ '.' :: r2.takeWhile Char.isDigit, r2.dropWhile Char.isDigit)
    | r1 => some (d1, r1)

/-- Result of matching `@type:(\w+)` or `@ext:(\w+)` at a position:
`group(0)` and `group(1)`. -/
structure WordMatch where
  g0 : List Char
  g1 : List Char
deriving DecidableEq, Repr

/-- Result of matching `@size:([><])?(\d+\.?\d*)(kb|mb|gb)?` at a
position. -/
structure SizeMatch where
  g0 : List Char
  op : Option Char
  num : List Char
  unit : Option (List Char)
deriving DecidableEq, Repr

/-- Result of matching `@date:([><])?(\d{4}-\d{2}-\d{2})` at a position:
`group(0)`, the operator, and the three digit groups. -/
structure DateMatch where
  g0 : List Char
  op : Option Char
  y : Nat
  m : Nat
  d : Nat
deriving DecidableEq, Repr

/-- Match `@<kw>:(\w+)` (case-insensitively) at the start of `s`;
`kw` is the lowercase literal including `@` and `:`. -/
def matchWordAt (kw : List Char) (s : List Char) : Option WordMatch :=
  if ciStarts kw s then
    let run := (s.drop kw.length).takeWhile wordChar
    if run.isEmpty then none
    else some { g0 := s.take kw.length ++ run, g1 := run }
  else none

/-- The optional `([><])?` group: operator (if any) and remainder. -/
def matchOp : List Char → Option Char × List Char
  | '>' :: r => (some '>', r)
  | '<' :: r => (some '<', r)
  | r => (none, r)

/-- Match `@size:([><])?(\d+\.?\d*)(kb|mb|gb)?` at the start of `s`. -/
def matchSizeAt (s : List Char) : Option SizeMatch :=
  if ciStarts ('@' :: 's' :: 'i' :: 'z' :: 'e' :: ':' :: []) s then
    let (op, r1) := matchOp (s.drop 6)
    match matchNumber r1 with
    | none => none
    | some (num, r2) =>
      let opLen := if op.isSome then 1 else 0
      if ciStarts ('k' :: 'b' :: []) r2 then
        some { g0 := s.take (6 + opLen + num.length + 2), op := op, num := num,
               unit := some ('k' :: 'b' :: []) }
      else if ciStarts ('m' :: 'b' :: []) r2 then
        some { g0 := s.take (6 + opLen + num.length + 2), op := op, num := num,
               unit := some ('m' :: 'b' :: []) }
      else if ciStarts ('g' :: 'b' :: []) r2 then
        some { g0 := s.take (6 + opLen + num.length + 2), op := op, num := num,
               unit := some ('g' :: 'b' :: []) }
      else
        some { g0 := s.take (6 + opLen + num.length), op := op, num := num,
               unit := none }
  else none

/-- Match `@date:([><])?(\d{4}-\d{2}-\d{2})` at the start of `s`. -/
def matchDateAt (s : List Char) : Option DateMatch :=
  if ciStarts ('@' :: 'd' :: 'a' :: 't' :: 'e' :: ':' :: []) s then
    let (op, r1) := matchOp (s.drop 6)
    let opLen := if op.isSome then 1 else 0
    match matchDigits 4 r1 with
    | none => none
    | some (y, r2) =>
      match r2 with
      | '-' :: r3 =>
        match matchDigits 2 r3 with
        | none => none
        | some (m, r4) =>
          match r4 with
          | '-' :: r5 =>
            match matchDigits 2 r5 with
            | none => none
            | some (d, _) =>
              some { g0 := s.take (6 + opLen + 10), op := op, y := y, m := m, d := d }
          | _ => none
      | _ => none
  else none

/-- `re.search`: the match at the leftmost position where the pattern
matches (also tried at the end-of-string position). -/
def reSearch {α : Type} (matchAt : List Char → Option α) : List Char → Option α
  | [] => matchAt []
  | c :: rest =>
    match matchAt (c :: rest) with
    | some r => some r
    | none => reSearch matchAt rest

/-- Gregorian leap year. -/
def isLeap (y : Nat) : Bool := y % 4 = 0 && (y % 100 ≠ 0 || y % 400 = 0)

/-- Days in a month. -/
def daysInMonth (y m : Nat) : Nat :=
  if m = 2 then (if isLeap y then 29 else 28)
  else if m = 4 ∨ m = 6 ∨ m = 9 ∨ m = 11 then 30
  else 31

/-- Order-preserving integer encoding of a calendar date (with room for a
seconds-of-day offset below `100000`). -/
def dateEncode (y m d : Nat) : Int := ((y * 10000 + m * 100 + d : Nat) : Int) * 100000

/-- `datetime.strptime(date_str, '%Y-%m-%d')`: `none` models the
`ValueError` raised on an out-of-range month/day/year. -/
def strptimeYmd (y m d : Nat) : Option Int :=
  if 1 ≤ y ∧ y ≤ 9999 ∧ 1 ≤ m ∧ m ≤ 12 ∧ 1 ≤ d ∧ d ≤ daysInMonth y m
  then some (dateEncode y m d) else none

/-- `datetime.fromisoformat` restricted to the shapes the collaborators
produce (`YYYY-MM-DD`, optionally `T`/space and `HH:MM:SS`; fractional
seconds and offsets are not modelled).  `none` = `ValueError`, which
`apply_filters` catches and turns into `None`. -/
def parseIso (s : List Char) : Option Int :=
  match matchDigits 4 s with
  | none => none
  | some (y, r1) =>
    match r1 with
    | '-' :: r2 =>
      match matchDigits 2 r2 with
      | none => none
      | some (m, r3) =>
        match r3 with
        | '-' :: r4 =>
          match matchDigits 2 r4 with
          | none => none
          | some (d, r5) =>
            if ¬ (1 ≤ y ∧ y ≤ 9999 ∧ 1 ≤ m ∧ m ≤ 12 ∧ 1 ≤ d ∧ d ≤ daysInMonth y m)
            then none
            else
              match r5 with
              | [] => some (dateEncode y m d)
              | sep :: r6 =>
                if sep = 'T' ∨ sep = ' ' then
                  match matchDigits 2 r6 with
                  | none => none
                  | some (hh, ':' :: r7) =>
                    match matchDigits 2 r7 with
                    | none => none
                    | some (mi, ':' :: r8) =>
                      match matchDigits 2 r8 with
                      | none => none
                      | some (ss, []) =>
                        if hh ≤ 23 ∧ mi ≤ 59 ∧ ss ≤ 59
                        then some (dateEncode y m d + (hh * 3600 + mi * 60 + ss : Nat))
                        else none
                      | some (_, _) => none
                    | some (_, _) => none
                  | some (_, _) => none
                else none
        | _ => none
    | _ => none

/-- `multipliers.get(unit, 1024)` with `kb/mb/gb`. -/
def sizeMult (unit : List Char) : ℚ :=
  if unit = 'k' :: 'b' :: [] then 1024
  else if unit = 'm' :: 'b' :: [] then 1024 ^ 2
  else if unit = 'g' :: 'b' :: [] then 1024 ^ 3
  else 1024

/-- `float(group(2))` for a `\d+\.?\d*` match (exact decimal value). -/
def floatOfDigits (num : List Char) : ℚ :=
  let ip := num.takeWhile Char.isDigit
  let fp := (num.dropWhile Char.isDigit).drop 1
  (digitsToNat ip : ℚ) + (digitsToNat fp : ℚ) / ((10 : ℚ) ^ fp.length)

/-- `AdaptiveTrieFuzzySearch.parse_advanced_filters(query)`.  Each filter
kind is extracted with `re.search` (first match), its `group(0)` text is
removed everywhere with `str.replace`, and the query is stripped; the
remaining whitespace-separated words become `search_terms`.  `none` models
the uncaught `ValueError` from `strptime` on a digit-shaped but invalid
date. -/
def parse_advanced_filters (q : List Char) : Option Filters :=
  let (ty, q1) :=
    match reSearch (matchWordAt ('@' :: 't' :: 'y' :: 'p' :: 'e' :: ':' :: [])) q with
    | some wm => (some (lowerStr wm.g1), pyStrip (replaceDel q wm.g0))
    | none => (none, q)
  let (ext, q2) :=
    match reSearch (matchWordAt ('@' :: 'e' :: 'x' :: 't' :: ':' :: [])) q1 with
    | some wm => (some (lowerStr wm.g1), pyStrip (replaceDel q1 wm.g0))
    | none => (none, q1)
  let (smin, smax, q3) :=
    match reSearch matchSizeAt q2 with
    | some sm =>
      let bytes := floatOfDigits sm.num * sizeMult ((sm.unit.getD ('k' :: 'b' :: [])))
      if sm.op.getD '>' = '>'
      then (some bytes, none, pyStrip (replaceDel q2 sm.g0))
      else (none, some bytes, pyStrip (replaceDel q2 sm.g0))
    | none => (none, none, q2)
  match reSearch matchDateAt q3 with
  | some dm =>
    match strptimeYmd dm.y dm.m dm.d with
    | none => none
    | some dt =>
      let q4 := pyStrip (replaceDel q3 dm.g0)
      if dm.op.getD '>' = '>'
      then some { type := ty, size_min := smin, size_max := smax,
                  date_from := some dt, date_to := none, extension := ext,
                  search_terms := pySplit q4 }
      else some { type := ty, size_min := smin, size_max := smax,
                  date_from := none, date_to := some dt, extension := ext,
                  search_terms := pySplit q4 }
  | none =>
    some { type := ty, size_min := smin, size_max := smax,
           date_from := none, date_to := none, extension := ext,
           search_terms := pySplit q3 }

/-!  ## The engine: indexing, semantics, filtering, scoring, search -/

/-- Dict lookup in an association list keyed by record id. -/
def lookupId {β : Type} : List (Int × β) → Int → Option β
  | [], _ => none
  | (k, v) :: rest, i => if k = i then some v else lookupId rest i

/-- Dict assignment keyed by record id (replace in place or append). -/
def setAssoc {β : Type} : List (Int × β) → Int → β → List (Int × β)
  | [], i, v => [(i, v)]
  | (k, w) :: rest, i, v =>
    if k = i then (i, v) :: rest else (k, w) :: setAssoc rest i v

/-- Lookup in a list keyed by strings (for the semantic map). -/
def lookupStr {β : Type} : List (List Char × β) → List Char → Option β
  | [], _ => none
  | (k, v) :: rest, s => if k = s then some v else lookupStr rest s

/-- The engine state: the trie root, `files_index`, and
`user_interactions`.  `search_history` only feeds `get_stats`, which no
claim concerns, so it is omitted. -/
structure Engine where
  root : Trie
  files_index : List (Int × FileData)
  user_interactions : List (Int × InteractionRec)

/-- The engine as freshly constructed. -/
def emptyEngine : Engine :=
  { root := emptyNode, files_index := [], user_interactions := [] }

/-- Helper for `re.findall(r'\w+', s)`: maximal runs of word characters
(`cur` is the reversed current run). -/
def wordRunsAux : List Char → List Char → List (List Char)
  | cur, [] => if cur.isEmpty then [] else [cur.reverse]
  | cur, c :: rest =>
    if wordChar c then wordRunsAux (c :: cur) rest
    else if cur.isEmpty then wordRunsAux [] rest
    else cur.reverse :: wordRunsAux [] rest

/-- `re.findall(r'\w+', s)`. -/
def wordRuns (s : List Char) : List (List Char) := wordRunsAux [] s

/-- `AdaptiveTrieFuzzySearch.index_file(file_data)`; `id` is
`file_data['id']`. -/
def index_file (eng : Engine) (id : Int) (fd : FileData) : Engine :=
  let fi := setAssoc eng.files_index id fd
  let t1 := (wordRuns (lowerStr fd.name)).foldl (fun t w => insert_word t w id) eng.root
  let t2 := insert_word t1 ((lowerStr fd.name).filter (fun c => c ≠ ' ')) id
  let t3 := if ¬ fd.type.isEmpty then insert_word t2 (lowerStr fd.type) id else t2
  let t4 := if ¬ fd.extension.isEmpty
    then insert_word t3 ((lowerStr fd.extension).filter (fun c => c ≠ '.')) id else t3
  let t5 := fd.tags.foldl (fun t tg => insert_word t (lowerStr tg) id) t4
  { root := t5, files_index := fi, user_interactions := eng.user_interactions }

/-- `_build_semantic_map()`. -/
def semantic_map : List (List Char × List (List Char)) :=
  [("photo".toList, ["image".toList]),
   ("photos".toList, ["image".toList]),
   ("picture".toList, ["image".toList]),
   ("pictures".toList, ["image".toList]),
   ("img".toList, ["image".toList]),
   ("screenshot".toList, ["image".toList]),
   ("screenshots".toList, ["image".toList]),
   ("video".toList, ["video".toList]),
   ("videos".toList, ["video".toList]),
   ("movie".toList, ["video".toList]),
   ("movies".toList, ["video".toList]),
   ("film".toList, ["video".toList]),
   ("clip".toList, ["video".toList]),
   ("clips".toList, ["video".toList]),
   ("audio".toList, ["audio".toList]),
   ("music".toList, ["audio".toList]),
   ("song".toList, ["audio".toList]),
   ("songs".toList, ["audio".toList]),
   ("track".toList, ["audio".toList]),
   ("podcast".toList, ["audio".toList]),
   ("podcasts".toList, ["audio".toList]),
   ("sound".toList, ["audio".toList]),
   ("document".toList, ["document".toList]),
   ("documents".toList, ["document".toList]),
   ("doc".toList, ["document".toList]),
   ("docs".toList, ["document".toList]),
   ("pdf".toList, ["document".toList]),
   ("pdfs".toList, ["document".toList]),
   ("text".toList, ["document".toList]),
   ("report".toList, ["document".toList]),
   ("reports".toList, ["document".toList]),
   ("spreadsheet".toList, ["document".toList]),
   ("spreadsheets".toList, ["document".toList]),
   ("presentation".toList, ["document".toList]),
   ("presentations".toList, ["document".toList]),
   ("code".toList, ["code".toList]),
   ("script".toList, ["code".toList]),
   ("scripts".toList, ["code".toList]),
   ("program".toList, ["code".toList]),
   ("source".toList, ["code".toList]),
   ("archive".toList, ["compressed".toList]),
   ("archives".toList, ["compressed".toList]),
   ("zip".toList, ["compressed".toList]),
   ("compressed".toList, ["compressed".toList])]

/-- `AdaptiveTrieFuzzySearch.semantic_expand_query(query)`. -/
def semantic_expand_query (q : List Char) : List (List Char) :=
  let ql := lowerStr q
  match lookupStr semantic_map ql with
  | some exps => ql :: exps
  | none => [ql]

/-- Python truthiness of an optional string. -/
def optStrTruthy : Option (List Char) → Bool
  | some s => !s.isEmpty
  | none => false

/-- `AdaptiveTrieFuzzySearch.apply_filters(file_id, filters)`. -/
def apply_filters (eng : Engine) (id : Int) (F : Filters) : Bool :=
  match lookupId eng.files_index id with
  | none => false
  | some fd =>
    if optStrTruthy F.type ∧ lowerStr fd.type ≠ F.type.getD [] then false
    else if optStrTruthy F.extension ∧
        (lowerStr fd.extension).filter (fun c => c ≠ '.') ≠ F.extension.getD []
    then false
    else if F.size_min.isSome ∧ (fd.size : ℚ) < F.size_min.getD 0 then false
    else if F.size_max.isSome ∧ (fd.size : ℚ) > F.size_max.getD 0 then false
    else if F.date_from.isSome ∨ F.date_to.isSome then
      match fd.uploaded_at.bind parseIso with
      | some up =>
        if F.date_from.isSome ∧ up < F.date_from.getD 0 then false
        else if F.date_to.isSome ∧ up > F.date_to.getD 0 then false
        else true
      | none => true
    else true

/-- The filename bonus of `calculate_score` (exact / starts-with /
substring, mutually exclusive in that order). -/
def filenameBonus (nameL qL : List Char) : Int :=
  if qL = nameL then 50
  else if qL.isPrefixOf nameL then 30
  else if inStr qL nameL then 20
  else 0

/-- The recency bonus of `calculate_score`: `(datetime.now() -
last_accessed).days`, flooring like `timedelta.days`. -/
def recencyBonus (now : Int) : Option Int → Int
  | none => 0
  | some t =>
    let days := (now - t).fdiv 86400
    if days < 7 then (7 - days) * 3 else 0

/-- `AdaptiveTrieFuzzySearch.calculate_score(file_id, query, match_type)`;
`now` is `datetime.now()` in seconds. -/
def calculate_score (eng : Engine) (now : Int) (id : Int) (q : List Char)
    (mt : MatchType) : Int :=
  match lookupId eng.files_index id with
  | none => 0
  | some fd =>
    let inter := (lookupId eng.user_interactions id).getD defaultInteraction
    let ql := lowerStr q
    baseScore mt
      + filenameBonus (lowerStr fd.name) ql
      + (inter.view_count : Int) * 2
      + (inter.download_count : Int) * 5
      + (inter.search_selections : Int) * 10
      + recencyBonus now inter.last_accessed
      + (if ql ∈ inter.search_queries then 15 else 0)

/-- `AdaptiveTrieFuzzySearch.record_interaction(file_id, interaction_type,
query)`; `now` is `datetime.now()`. -/
def record_interaction (eng : Engine) (id : Int) (ty : List Char)
    (q : Option (List Char)) (now : Int) : Engine :=
  let inter := (lookupId eng.user_interactions id).getD defaultInteraction
  let inter :=
    if ty = "view".toList then { inter with view_count := inter.view_count + 1 }
    else if ty = "download".toList then
      { inter with download_count := inter.download_count + 1 }
    else if ty = "select".toList then
      { inter with search_selections := inter.search_selections + 1 }
    else inter
  let inter := { inter with last_accessed := some now }
  let inter :=
    match q with
    | some s =>
      if ¬ s.isEmpty ∧ lowerStr s ∉ inter.search_queries
      then { inter with search_queries := inter.search_queries ++ [lowerStr s] }
      else inter
    | none => inter
  { eng with user_interactions := setAssoc eng.user_interactions id inter }

/-- `if file_id not in matches: matches[file_id] = mt` folded over a result
set. -/
def addCandidates (m : List (Int × MatchType)) (ids : List Int) (mt : MatchType) :
    List (Int × MatchType) :=
  ids.foldl (fun acc i => if (lookupId acc i).isSome then acc else acc ++ [(i, mt)]) m

/-- The candidate-generation stage of `search` for nonempty search terms:
for every semantically expanded query, first the exact-prefix results
(tagged `exact` for the expansion equal to the raw term, `semantic`
otherwise), then - when fuzzy matching is on - the fuzzy results of that
same expansion, tagged `fuzzy`; entries already present are never
replaced. -/
def searchMatches (t : Trie) (terms : List Char) (use_fuzzy : Bool) :
    List (Int × MatchType) :=
  (semantic_expand_query terms).foldl (fun m q =>
    let mt := if q = terms then MatchType.exact else MatchType.semantic
    let m1 := addCandidates m (exact_prefix_search t q) mt
    if use_fuzzy then addCandidates m1 (fuzzy_search_trie t q 2) MatchType.fuzzy
    else m1) []

/-- Modelled from the spec: the candidate generation C4 claims, in which
`fuzzy_search` is run **for the literal joined term only**, never for a
SemanticExpander expansion (compare with `searchMatches`, which the code
actually runs and which calls `fuzzy_search_trie` on every expansion). -/
def searchMatchesClaimC4 (t : Trie) (terms : List Char) (use_fuzzy : Bool) :
    List (Int × MatchType) :=
  let m := (semantic_expand_query terms).foldl (fun m q =>
    let mt := if q = terms then MatchType.exact else MatchType.semantic
    addCandidates m (exact_prefix_search t q) mt) []
  if use_fuzzy then addCandidates m (fuzzy_search_trie t (lowerStr terms) 2) MatchType.fuzzy
  else m

/-- The candidate fold of `searchMatches`, generalised over the list of
expansions still to process and the accumulator (a proof device for
reasoning about `searchMatches` by induction). -/
def searchFold (t : Trie) (terms : List Char) (fz : Bool)
    (exps : List (List Char)) (m : List (Int × MatchType)) :
    List (Int × MatchType) :=
  exps.foldl (fun m q =>
    let mt := if q = terms then MatchType.exact else MatchType.semantic
    let m1 := addCandidates m (exact_prefix_search t q) mt
    if fz then addCandidates m1 (fuzzy_search_trie t q 2) MatchType.fuzzy
    else m1) m

/-- One ranked result of `search` (the id, `search_score` and `match_type`
fields; the other copied `file_data` fields carry no extra information). -/
structure SearchResult where
  id : Int
  search_score : Int
  match_type : MatchType
deriving DecidableEq, Repr

/-- Insert into a descending-by-score list, after any equal scores (so the
fold below is the stable descending sort of `list.sort(key=score,
reverse=True)`). -/
def insResult (x : SearchResult) : List SearchResult → List SearchResult
  | [] => [x]
  | y :: ys => if y.search_score < x.search_score then x :: y :: ys
    else y :: insResult x ys

/-- Stable sort by `search_score`, descending. -/
def sortByScore (l : List SearchResult) : List SearchResult :=
  l.foldl (fun acc x => insResult x acc) []

/-- Python list slicing `lst[:k]` for an arbitrary integer `k`
(a negative `k` keeps all but the last `|k|` elements). -/
def pySlice {β : Type} (l : List β) (k : Int) : List β :=
  if k < 0 then l.take ((l.length + k).toNat) else l.take k.toNat

/-- `AdaptiveTrieFuzzySearch.search(query, limit, use_fuzzy)`; `none`
models an uncaught exception escaping from `parse_advanced_filters`.
The `search_history` append has no effect on the result and is omitted. -/
def search (eng : Engine) (now : Int) (q : List Char) (limit : Int)
    (use_fuzzy : Bool) : Option (List SearchResult) :=
  if q.isEmpty ∨ (pyStrip q).isEmpty then some []
  else
    match parse_advanced_filters q with
    | none => none
    | some F =>
      let terms0 := List.intercalate [' '] F.search_terms
      let Ft :=
        if ¬ terms0.isEmpty ∧ F.type = none then
          match lookupStr semantic_map (lowerStr terms0) with
          | some (ty :: _) => ({ F with type := some ty }, ([] : List Char))
          | some [] => (F, terms0)
          | none => (F, terms0)
        else (F, terms0)
      let cands :=
        if ¬ Ft.2.isEmpty then searchMatches eng.root Ft.2 use_fuzzy
        else eng.files_index.map (fun p => (p.1, MatchType.filterOnly))
      let filtered := cands.filter (fun p => apply_filters eng p.1 Ft.1)
      let scored := filtered.map (fun p =>
        { id := p.1, search_score := calculate_score eng now p.1 Ft.2 p.2,
          match_type := p.2 })
      some (pySlice (sortByScore scored) limit)

/-!  ## Concrete instances used by counterexamples and witnesses -/

/-- Frequency of the node reached by `p` (`0` when the path is absent). -/
def freqAt (t : Trie) (p : List Char) : Nat :=
  ((walkTrie t p).map Trie.frequency).getD 0

/-- A minimal file record named `nota`. -/
def fdNota : FileData :=
  { name := "nota".toList, type := [], size := 0, uploaded_at := none,
    tags := [], extension := [] }

/-- A minimal file record named `notaz`. -/
def fdNotaz : FileData :=
  { name := "notaz".toList, type := [], size := 0, uploaded_at := none,
    tags := [], extension := [] }

/-- Engine with two records whose names share the prefix `nota`
(for the negative-limit counterexample C7). -/
def engC7 : Engine := index_file (index_file emptyEngine 1 fdNota) 2 fdNotaz

/-- A record of type `xyz` named `imagz` - one edit away from the semantic
expansion `image` of `photo`, but not an exact-prefix match of either
`photo` or `image` (for C4). -/
def fdImagz : FileData :=
  { name := "imagz".toList, type := "xyz".toList, size := 0, uploaded_at := none,
    tags := [], extension := [] }

/-- Engine holding only `fdImagz` (for C4). -/
def engC4 : Engine := index_file emptyEngine 1 fdImagz

/-- A record with the one-letter name `a` (for C3 and C8). -/
def fdA : FileData :=
  { name := "a".toList, type := [], size := 0, uploaded_at := none,
    tags := [], extension := [] }

/-- Engine with a single indexed record named `a` (for C3). -/
def engC3 : Engine := index_file emptyEngine 1 fdA

/-- A record whose `uploaded_at` is a string `fromisoformat` cannot parse
(for C10). -/
def fdBadDate : FileData :=
  { name := "x".toList, type := [], size := 0,
    uploaded_at := some "not-a-date".toList, tags := [], extension := [] }

/-- Engine holding only `fdBadDate` (for C10). -/
def engC10 : Engine := index_file emptyEngine 1 fdBadDate

end TrieSpec

namespace TrieSpec

/-! # Theorems -/

@[simp] theorem levD_nil_left (b : List Char) : levD [] b = b.length := by
  rw [levD]

@[simp] theorem levD_nil_right (a : List Char) : levD a [] = a.length := by
  cases a <;> rw [levD]

theorem levD_cons_cons (a b : Char) (as bs : List Char) :
    levD (a :: as) (b :: bs) =
      min (1 + levD as (b :: bs))
        (min (1 + levD (a :: as) bs) ((if a = b then 0 else 1) + levD as bs)) := by
  rw [levD]

theorem mathlibLev_nil_left (b : List Char) :
    levenshtein Levenshtein.defaultCost [] b = b.length := by
  induction b with
  | nil => simp
  | cons y ys ih => rw [levenshtein_nil_cons, ih]; simp [Levenshtein.defaultCost]; omega

theorem mathlibLev_nil_right (a : List Char) :
    levenshtein Levenshtein.defaultCost a [] = a.length := by
  induction a with
  | nil => simp
  | cons x xs ih => rw [levenshtein_cons_nil, ih]; simp [Levenshtein.defaultCost]; omega

theorem levD_eq_mathlib (a b : List Char) :
    levD a b = levenshtein Levenshtein.defaultCost a b := by
  have key : ∀ n (a b : List Char), a.length + b.length = n →
      levD a b = levenshtein Levenshtein.defaultCost a b := by
    intro n
    induction n using Nat.strong_induction_on with
    | _ n ih =>
      intro a b hn
      cases a with
      | nil => rw [levD_nil_left, mathlibLev_nil_left]
      | cons a as =>
        cases b with
        | nil => rw [levD_nil_right, mathlibLev_nil_right]
        | cons b bs =>
          rw [levD_cons_cons, levenshtein_cons_cons]
          rw [ih (as.length + (b :: bs).length)
              (by subst hn; simp only [List.length_cons]; omega) as (b :: bs) rfl,
            ih ((a :: as).length + bs.length)
              (by subst hn; simp only [List.length_cons]; omega) (a :: as) bs rfl,
            ih (as.length + bs.length)
              (by subst hn; simp only [List.length_cons]; omega) as bs rfl]
          simp only [Levenshtein.defaultCost]
  exact key (a.length + b.length) a b rfl

theorem levD_comm (a b : List Char) : levD a b = levD b a := by
  have key : ∀ n (a b : List Char), a.length + b.length = n → levD a b = levD b a := by
    intro n
    induction n using Nat.strong_induction_on with
    | _ n ih =>
      intro a b hn
      cases a with
      | nil => simp
      | cons a as =>
        cases b with
        | nil => simp
        | cons b bs =>
          rw [levD_cons_cons, levD_cons_cons]
          rw [ih (as.length + (b :: bs).length)
              (by subst hn; simp only [List.length_cons]; omega) as (b :: bs) rfl,
            ih ((a :: as).length + bs.length)
              (by subst hn; simp only [List.length_cons]; omega) (a :: as) bs rfl,
            ih (as.length + bs.length)
              (by subst hn; simp only [List.length_cons]; omega) as bs rfl]
          have hc : (if a = b then 0 else 1) = (if b = a then 0 else 1) := by
            rcases eq_or_ne a b with h | h
            · rw [if_pos h, if_pos h.symm]
            · rw [if_neg h, if_neg (Ne.symm h)]
          rw [hc]
          omega
  exact key (a.length + b.length) a b rfl

theorem levD_le_cons_left (x : Char) (a b : List Char) :
    levD (x :: a) b ≤ 1 + levD a b := by
  cases b with
  | nil => simp; omega
  | cons y ys => rw [levD_cons_cons]; exact min_le_left _ _

theorem levD_le_cons_right (y : Char) (a b : List Char) :
    levD a (y :: b) ≤ 1 + levD a b := by
  cases a with
  | nil => simp; omega
  | cons x xs =>
    rw [levD_cons_cons]
    exact le_trans (min_le_right _ _) (min_le_left _ _)

theorem levD_sub_le (x y : Char) (a b : List Char) :
    levD (x :: a) (y :: b) ≤ (if x = y then 0 else 1) + levD a b := by
  rw [levD_cons_cons]
  exact le_trans (min_le_right _ _) (min_le_right _ _)

theorem levD_ge_dist (a b : List Char) :
    Nat.dist a.length b.length ≤ levD a b := by
  have key : ∀ n (a b : List Char), a.length + b.length = n →
      Nat.dist a.length b.length ≤ levD a b := by
    intro n
    induction n using Nat.strong_induction_on with
    | _ n ih =>
      intro a b hn
      cases a with
      | nil => simp [Nat.dist]
      | cons a as =>
        cases b with
        | nil => simp [Nat.dist]
        | cons b bs =>
          rw [levD_cons_cons]
          have h1 := ih (as.length + (b :: bs).length)
            (by subst hn; simp only [List.length_cons]; omega) as (b :: bs) rfl
          have h2 := ih ((a :: as).length + bs.length)
            (by subst hn; simp only [List.length_cons]; omega) (a :: as) bs rfl
          have h3 := ih (as.length + bs.length)
            (by subst hn; simp only [List.length_cons]; omega) as bs rfl
          simp only [Nat.dist, List.length_cons] at *
          omega
  exact key (a.length + b.length) a b rfl

/-- Extending both strings by one final character satisfies the DP
recurrence of the source (stated in the operand order of the Python code:
insertions, deletions, substitutions). -/
theorem levD_append_single (a b : List Char) (x y : Char) :
    levD (a ++ [x]) (b ++ [y]) =
      min (levD a (b ++ [y]) + 1)
        (min (levD (a ++ [x]) b + 1) (levD a b + (if x = y then 0 else 1))) := by
  have key : ∀ n (a b : List Char), a.length + b.length = n →
      levD (a ++ [x]) (b ++ [y]) =
        min (levD a (b ++ [y]) + 1)
          (min (levD (a ++ [x]) b + 1) (levD a b + (if x = y then 0 else 1))) := by
    intro n
    induction n using Nat.strong_induction_on with
    | _ n ih =>
      intro a b hn
      cases a with
      | nil =>
        cases b with
        | nil =>
          simp only [List.nil_append]
          rw [levD_cons_cons]
          simp only [levD_nil_left, levD_nil_right, List.length_nil, List.length_cons]
          apply le_antisymm <;>
          · simp only [← min_add_add_left, ← min_add_add_right, le_min_iff, min_le_iff]
            omega
        | cons b0 bs =>
          simp only [List.nil_append, List.cons_append]
          rw [levD_cons_cons]
          have h1 := ih (List.length ([] : List Char) + bs.length)
            (by subst hn; simp only [List.length_cons, List.length_nil]; omega)
            [] bs rfl
          simp only [List.nil_append] at h1
          rw [h1]
          rw [levD_cons_cons x b0 [] bs]
          simp only [levD_nil_left, levD_nil_right, List.length_nil,
            List.length_cons, List.length_append]
          apply le_antisymm <;>
          · simp only [← min_add_add_left, ← min_add_add_right, le_min_iff, min_le_iff]
            omega
      | cons a0 as =>
        cases b with
        | nil =>
          simp only [List.nil_append, List.cons_append]
          rw [levD_cons_cons]
          have h1 := ih (as.length + List.length ([] : List Char))
            (by subst hn; simp only [List.length_cons, List.length_nil]; omega)
            as [] rfl
          simp only [List.nil_append] at h1
          rw [h1]
          rw [levD_cons_cons a0 y as []]
          simp only [levD_nil_left, levD_nil_right, List.length_nil,
            List.length_cons, List.length_append]
          apply le_antisymm <;>
          · simp only [← min_add_add_left, ← min_add_add_right, le_min_iff, min_le_iff]
            omega
        | cons b0 bs =>
          simp only [List.cons_append]
          rw [levD_cons_cons]
          have e1 := ih (as.length + (b0 :: bs).length)
            (by subst hn; simp only [List.length_cons]; omega) as (b0 :: bs) rfl
          have e2 := ih ((a0 :: as).length + bs.length)
            (by subst hn; simp only [List.length_cons]; omega) (a0 :: as) bs rfl
          have e3 := ih (as.length + bs.length)
            (by subst hn; simp only [List.length_cons]; omega) as bs rfl
          simp only [List.cons_append] at e1 e2 e3
          rw [e1, e2, e3]
          rw [levD_cons_cons a0 b0 as (bs ++ [y]),
            levD_cons_cons a0 b0 (as ++ [x]) bs,
            levD_cons_cons a0 b0 as bs]
          apply le_antisymm <;>
          · simp only [← min_add_add_left, ← min_add_add_right, le_min_iff, min_le_iff]
            omega
  exact key (a.length + b.length) a b rfl

theorem rowAux_nil (c1 : Char) (prev : List Nat) (last : Nat) :
    rowAux c1 [] prev last = [] := by
  cases prev with
  | nil => rfl
  | cons p0 ps => cases ps <;> rfl

theorem rowAux_cons (c1 c2 : Char) (cs : List Char) (p0 p1 : Nat) (ps : List Nat)
    (last : Nat) :
    rowAux c1 (c2 :: cs) (p0 :: p1 :: ps) last =
      min (p1 + 1) (min (last + 1) (p0 + (if c1 = c2 then 0 else 1))) ::
        rowAux c1 cs (p1 :: ps)
          (min (p1 + 1) (min (last + 1) (p0 + (if c1 = c2 then 0 else 1)))) := rfl

theorem levLoop_nil (s2 : List Char) (maxd i : Nat) (prev : List Nat) :
    levLoop s2 maxd [] i prev = prev.getLastD 0 := rfl

theorem levLoop_cons (s2 : List Char) (maxd : Nat) (c1 : Char) (rest : List Char)
    (i : Nat) (prev : List Nat) :
    levLoop s2 maxd (c1 :: rest) i prev =
      if maxd < ((i + 1) :: rowAux c1 s2 prev (i + 1)).foldl min (i + 1) then maxd + 1
      else levLoop s2 maxd rest (i + 1) ((i + 1) :: rowAux c1 s2 prev (i + 1)) := rfl

theorem prefRow_cons_head (p E b) :
    prefRow p E b = levD p E :: (prefRow p E b).tail := by
  cases b <;> rfl

theorem prefRow_getLastD (p : List Char) :
    ∀ (b E : List Char) (d : Nat), (prefRow p E b).getLastD d = levD p (E ++ b) := by
  intro b
  induction b with
  | nil => intro E d; simp [prefRow]
  | cons c cs ih =>
    intro E d
    rw [prefRow, List.getLastD_cons, ih (E ++ [c])]
    simp

theorem prefRow_range :
    ∀ (b E : List Char), prefRow [] E b = List.range' E.length (b.length + 1) := by
  intro b
  induction b with
  | nil => intro E; simp [prefRow, List.range']
  | cons c cs ih =>
    intro E
    rw [prefRow, ih (E ++ [c])]
    simp [List.range']

theorem prefRow_mem_take (p : List Char) :
    ∀ (b E : List Char) (k : Nat), levD p (E ++ b.take k) ∈ prefRow p E b := by
  intro b
  induction b with
  | nil => intro E k; simp [prefRow]
  | cons c cs ih =>
    intro E k
    cases k with
    | zero => simp [prefRow]
    | succ j =>
      rw [prefRow]
      simp only [List.take_succ_cons, List.mem_cons]
      right
      have := ih (E ++ [c]) j
      simpa using this

theorem rowAux_spec (c1 : Char) (p : List Char) :
    ∀ (b E : List Char),
      rowAux c1 b (prefRow p E b) (levD (p ++ [c1]) E) =
        (prefRow (p ++ [c1]) E b).tail := by
  intro b
  induction b with
  | nil => intro E; rw [prefRow, prefRow, rowAux_nil]; rfl
  | cons c2 cs ih =>
    intro E
    rw [prefRow]
    rw [prefRow_cons_head p (E ++ [c2]) cs]
    rw [rowAux_cons]
    rw [← prefRow_cons_head p (E ++ [c2]) cs]
    have hv : min (levD p (E ++ [c2]) + 1)
        (min (levD (p ++ [c1]) E + 1)
          (levD p E + if c1 = c2 then 0 else 1)) = levD (p ++ [c1]) (E ++ [c2]) :=
      (levD_append_single p E c1 c2).symm
    rw [hv, ih (E ++ [c2])]
    conv_rhs => rw [prefRow, prefRow_cons_head (p ++ [c1]) (E ++ [c2]) cs]
    rfl

theorem foldl_min_le_init (l : List Nat) (a : Nat) : l.foldl min a ≤ a := by
  induction l generalizing a with
  | nil => simp
  | cons x xs ih =>
    simp only [List.foldl_cons]
    exact le_trans (ih (min a x)) (min_le_left _ _)

theorem foldl_min_le_mem (l : List Nat) (a x : Nat) (hx : x ∈ l) :
    l.foldl min a ≤ x := by
  induction l generalizing a with
  | nil => cases hx
  | cons y ys ih =>
    simp only [List.foldl_cons]
    rcases List.mem_cons.mp hx with h | h
    · subst h
      exact le_trans (foldl_min_le_init ys (min a x)) (min_le_right _ _)
    · exact ih _ h

/-- Crossing bound: some prefix of `s2` is within the final DP value of
`p`; this is what makes the per-row cutoff of the source sound. -/
theorem rowmin (rest : List Char) (s2 p : List Char) :
    ∃ k, levD p (s2.take k) ≤ levD (p ++ rest) s2 := by
  have key : ∀ n (s2 p : List Char), p.length + s2.length = n →
      ∃ k, levD p (s2.take k) ≤ levD (p ++ rest) s2 := by
    intro n
    induction n using Nat.strong_induction_on with
    | _ n ih =>
      intro s2 p hn
      cases p with
      | nil => exact ⟨0, by simp⟩
      | cons x p' =>
        cases s2 with
        | nil =>
          refine ⟨0, ?_⟩
          simp only [List.take_nil, levD_nil_right, List.length_append,
            List.length_cons]
          omega
        | cons y ys =>
          have expand : levD ((x :: p') ++ rest) (y :: ys) =
              min (1 + levD (p' ++ rest) (y :: ys))
                (min (1 + levD (x :: (p' ++ rest)) ys)
                  ((if x = y then 0 else 1) + levD (p' ++ rest) ys)) := by
            rw [List.cons_append, levD_cons_cons]
          obtain ⟨k1, hk1⟩ := ih (p'.length + (y :: ys).length)
            (by subst hn; simp only [List.length_cons]; omega) (y :: ys) p' rfl
          obtain ⟨k2, hk2⟩ := ih ((x :: p').length + ys.length)
            (by subst hn; simp only [List.length_cons]; omega) ys (x :: p') rfl
          obtain ⟨k3, hk3⟩ := ih (p'.length + ys.length)
            (by subst hn; simp only [List.length_cons]; omega) ys p' rfl
          rw [List.cons_append] at hk2
          have c1 : levD (x :: p') ((y :: ys).take k1) ≤
              1 + levD (p' ++ rest) (y :: ys) :=
            le_trans (levD_le_cons_left x p' _) (by omega)
          have c2 : levD (x :: p') ((y :: ys).take (k2 + 1)) ≤
              1 + levD (x :: (p' ++ rest)) ys := by
            simp only [List.take_succ_cons]
            exact le_trans (levD_le_cons_right y (x :: p') _) (by omega)
          have c3 : levD (x :: p') ((y :: ys).take (k3 + 1)) ≤
              (if x = y then 0 else 1) + levD (p' ++ rest) ys := by
            simp only [List.take_succ_cons]
            refine le_trans (levD_sub_le x y p' _) ?_
            have hc : (0 : Nat) ≤ (if x = y then (0 : Nat) else 1) := Nat.zero_le _
            omega
          have tri : levD ((x :: p') ++ rest) (y :: ys) =
                1 + levD (p' ++ rest) (y :: ys) ∨
              levD ((x :: p') ++ rest) (y :: ys) =
                1 + levD (x :: (p' ++ rest)) ys ∨
              levD ((x :: p') ++ rest) (y :: ys) =
                (if x = y then 0 else 1) + levD (p' ++ rest) ys := by
            rw [expand]; omega
          rcases tri with h | h | h
          · exact ⟨k1, by rw [h]; exact c1⟩
          · exact ⟨k2 + 1, by rw [h]; exact c2⟩
          · exact ⟨k3 + 1, by rw [h]; exact c3⟩
  exact key (p.length + s2.length) s2 p rfl

theorem levLoop_spec (s2 : List Char) (maxd : Nat) :
    ∀ (rest p : List Char),
      (levD (p ++ rest) s2 ≤ maxd →
        levLoop s2 maxd rest p.length (prefRow p [] s2) = levD (p ++ rest) s2) ∧
      (maxd < levD (p ++ rest) s2 →
        maxd < levLoop s2 maxd rest p.length (prefRow p [] s2) ∧
          (levLoop s2 maxd rest p.length (prefRow p [] s2) = maxd + 1 ∨
            levLoop s2 maxd rest p.length (prefRow p [] s2) =
              levD (p ++ rest) s2)) := by
  intro rest
  induction rest with
  | nil =>
    intro p
    rw [levLoop_nil]
    rw [prefRow_getLastD p s2 [] 0]
    rw [List.nil_append, List.append_nil]
    exact ⟨fun h => rfl, fun h => ⟨h, Or.inr rfl⟩⟩
  | cons c1 rs ih =>
    intro p
    rw [levLoop_cons]
    have hone : levD (p ++ [c1]) [] = p.length + 1 := by simp
    have hcur : (p.length + 1) :: rowAux c1 s2 (prefRow p [] s2) (p.length + 1) =
        prefRow (p ++ [c1]) [] s2 := by
      rw [← hone, rowAux_spec c1 p s2 []]
      exact (prefRow_cons_head (p ++ [c1]) [] s2).symm
    rw [hcur]
    obtain ⟨k, hk⟩ := rowmin rs s2 (p ++ [c1])
    have hmem : levD (p ++ [c1]) (s2.take k) ∈ prefRow (p ++ [c1]) [] s2 := by
      have := prefRow_mem_take (p ++ [c1]) s2 [] k
      simpa using this
    have hfold : (prefRow (p ++ [c1]) [] s2).foldl min (p.length + 1) ≤
        levD ((p ++ [c1]) ++ rs) s2 :=
      le_trans (foldl_min_le_mem _ _ _ hmem) hk
    rw [List.append_assoc, List.singleton_append] at hfold
    split
    · rename_i habort
      constructor
      · intro h; omega
      · intro h; exact ⟨Nat.lt_succ_self maxd, Or.inl rfl⟩
    · rename_i hno
      have hlen : p.length + 1 = (p ++ [c1]).length := by simp
      rw [hlen]
      have := ih (p ++ [c1])
      rw [List.append_assoc, List.singleton_append] at this
      exact this

theorem levCore_spec (s1 s2 : List Char) (maxd : Nat) :
    (levD s1 s2 ≤ maxd → levCore s1 s2 maxd = levD s1 s2) ∧
    (maxd < levD s1 s2 → maxd < levCore s1 s2 maxd ∧
      (levCore s1 s2 maxd = maxd + 1 ∨ levCore s1 s2 maxd = levD s1 s2)) := by
  unfold levCore
  split
  · rename_i hz
    have : s2 = [] := List.length_eq_zero.mp hz
    subst this
    rw [levD_nil_right]
    exact ⟨fun h => rfl, fun h => ⟨h, Or.inr rfl⟩⟩
  · have hrange : List.range (s2.length + 1) = prefRow [] [] s2 := by
      rw [prefRow_range s2 [], List.range_eq_range']
      rfl
    rw [hrange]
    have := levLoop_spec s2 maxd s1 []
    simpa using this

/-- The full behaviour of the bounded Levenshtein function: exact below the
bound; strictly above the bound (but not necessarily the sentinel) when the
true distance exceeds it. -/
theorem levenshtein_distance_spec (a b : List Char) (d : Nat) :
    (levD a b ≤ d → levenshtein_distance a b d = levD a b) ∧
    (d < levD a b → d < levenshtein_distance a b d ∧
      (levenshtein_distance a b d = d + 1 ∨ levenshtein_distance a b d = levD a b)) := by
  unfold levenshtein_distance
  split
  · rename_i h
    have hd := levD_ge_dist a b
    exact ⟨fun hle => by omega, fun hlt => ⟨Nat.lt_succ_self d, Or.inl rfl⟩⟩
  · rename_i h
    split
    · have := levCore_spec b a d
      rw [levD_comm b a] at this
      exact this
    · exact levCore_spec a b d

/-- C2 (amended): `levenshtein_distance(a, b, d)` returns the true
Levenshtein edit distance of `a` and `b` whenever that distance is `≤ d`;
whenever the true distance exceeds `d` it returns a value strictly greater
than `d` - either the sentinel `d + 1` or the true distance itself.  (The
original claim, that the result is always exactly `d + 1` in the second
case and hence never exceeds `d + 1`, is refuted by `C2_counterexample`.) -/
theorem C2_levenshtein_distance_amended (a b : List Char) (d : Nat) :
    (levD a b ≤ d → levenshtein_distance a b d = levD a b) ∧
    (d < levD a b → d < levenshtein_distance a b d ∧
      (levenshtein_distance a b d = d + 1 ∨ levenshtein_distance a b d = levD a b)) :=
  levenshtein_distance_spec a b d

/-- C2 counterexample: for `a = "aabb"`, `b = "bbxy"`, `d = 2`, the true
distance is `4 > d` but `levenshtein_distance` returns `4`, not the claimed
sentinel `d + 1 = 3` - so the result can be strictly greater than `d + 1`. -/
theorem C2_counterexample :
    2 < levD ['a', 'a', 'b', 'b'] ['b', 'b', 'x', 'y'] ∧
    levenshtein_distance ['a', 'a', 'b', 'b'] ['b', 'b', 'x', 'y'] 2 = 4 ∧
    levenshtein_distance ['a', 'a', 'b', 'b'] ['b', 'b', 'x', 'y'] 2 ≠ 2 + 1 := by
  refine ⟨?_, by decide, by decide⟩
  rw [levD_eq_mathlib]
  decide

/-- Witness for `C2_levenshtein_distance_amended` at a concrete input. -/
theorem C2_witness :
    levD ['c', 'a', 't'] ['c', 'u', 't'] ≤ 2 ∧
    levenshtein_distance ['c', 'a', 't'] ['c', 'u', 't'] 2 =
      levD ['c', 'a', 't'] ['c', 'u', 't'] :=
  ⟨by rw [levD_eq_mathlib]; decide,
    (C2_levenshtein_distance_amended ['c', 'a', 't'] ['c', 'u', 't'] 2).1
      (by rw [levD_eq_mathlib]; decide)⟩

/-!  ## Trie lemmas: insertion, walking, postings, frequencies -/

theorem mem_addId_self (l : List Int) (id : Int) : id ∈ addId l id := by
  unfold addId
  split
  · assumption
  · simp

theorem mem_addId_iff (l : List Int) (id x : Int) :
    x ∈ addId l id ↔ x ∈ l ∨ x = id := by
  unfold addId
  split
  · rename_i h
    constructor
    · exact Or.inl
    · rintro (hx | rfl) <;> assumption
  · simp

theorem addId_of_mem (l : List Int) (id : Int) (h : id ∈ l) : addId l id = l := by
  unfold addId
  rw [if_pos h]

theorem mem_addIds_iff (refs : List Int) :
    ∀ (l : List Int) (x : Int), x ∈ addIds l refs ↔ x ∈ l ∨ x ∈ refs := by
  induction refs with
  | nil => intro l x; simp [addIds]
  | cons r rs ih =>
    intro l x
    show x ∈ addIds (addId l r) rs ↔ _
    rw [ih (addId l r) x, mem_addId_iff]
    simp only [List.mem_cons]
    constructor
    · rintro ((h | rfl) | h)
      · exact Or.inl h
      · exact Or.inr (Or.inl rfl)
      · exact Or.inr (Or.inr h)
    · rintro (h | rfl | h)
      · exact Or.inl (Or.inl h)
      · exact Or.inl (Or.inr rfl)
      · exact Or.inr h

theorem lookupChild_setChild_self (cs : List (Char × Trie)) (c : Char) (u : Trie) :
    lookupChild (setChild cs c u) c = some u := by
  induction cs with
  | nil => simp [setChild, lookupChild]
  | cons p rest ih =>
    obtain ⟨c', t'⟩ := p
    unfold setChild
    split
    · simp [lookupChild]
    · rename_i h
      unfold lookupChild
      rw [if_neg h]
      exact ih

theorem lookupChild_setChild_ne (cs : List (Char × Trie)) (c d : Char) (u : Trie)
    (h : c ≠ d) : lookupChild (setChild cs c u) d = lookupChild cs d := by
  induction cs with
  | nil => simp [setChild, lookupChild, h]
  | cons p rest ih =>
    obtain ⟨c', t'⟩ := p
    unfold setChild
    split
    · rename_i h'
      subst h'
      unfold lookupChild
      rw [if_neg h, if_neg h]
    · unfold lookupChild
      split
      · rfl
      · exact ih

theorem Trie.children_mk (cs : List (Char × Trie)) (e : Bool) (r : List Int)
    (f : Nat) : (Trie.mk cs e r f).children = cs := rfl

theorem Trie.is_end_of_word_mk (cs : List (Char × Trie)) (e : Bool) (r : List Int)
    (f : Nat) : (Trie.mk cs e r f).is_end_of_word = e := rfl

theorem Trie.file_references_mk (cs : List (Char × Trie)) (e : Bool) (r : List Int)
    (f : Nat) : (Trie.mk cs e r f).file_references = r := rfl

theorem Trie.frequency_mk (cs : List (Char × Trie)) (e : Bool) (r : List Int)
    (f : Nat) : (Trie.mk cs e r f).frequency = f := rfl

theorem walkTrie_nil (t : Trie) : walkTrie t [] = some t := rfl

theorem walkTrie_cons (t : Trie) (c : Char) (p : List Char) :
    walkTrie t (c :: p) = (lookupChild t.children c).bind (fun u => walkTrie u p) :=
  rfl

theorem insertAux_frequency (w : List Char) (id : Int) (t : Trie) :
    (insertAux w id t).frequency = t.frequency := by
  cases w <;> cases t <;> rfl

theorem insertAux_file_references (w : List Char) (id : Int) (t : Trie) :
    (insertAux w id t).file_references = t.file_references := by
  cases w <;> cases t <;> rfl

theorem insertAux_nil (id : Int) (cs : List (Char × Trie)) (e : Bool)
    (r : List Int) (f : Nat) :
    insertAux [] id (.mk cs e r f) = .mk cs true r f := rfl

theorem insertAux_cons (c : Char) (w : List Char) (id : Int)
    (cs : List (Char × Trie)) (e : Bool) (r : List Int) (f : Nat) :
    insertAux (c :: w) id (.mk cs e r f) =
      .mk (setChild cs c (insertAux w id
        (Trie.mk ((lookupChild cs c).getD emptyNode).children
          ((lookupChild cs c).getD emptyNode).is_end_of_word
          (addId ((lookupChild cs c).getD emptyNode).file_references id)
          (((lookupChild cs c).getD emptyNode).frequency + 1)))) e r f := rfl

theorem mem_collectFiles_of_refs (t : Trie) (id : Int)
    (h : id ∈ t.file_references) : id ∈ collectFiles t := by
  cases t with
  | mk cs e r f =>
    rw [collectFiles]
    exact List.mem_append_left _ h

theorem insert_walk_mem (id : Int) :
    ∀ (w : List Char) (k : Nat) (t : Trie), 1 ≤ k → k ≤ w.length →
      ∃ n, walkTrie (insertAux w id t) (w.take k) = some n ∧
        id ∈ n.file_references := by
  intro w
  induction w with
  | nil => intro k t h1 h2; simp at h2; omega
  | cons c cs ih =>
    intro k t h1 h2
    cases t with
    | mk cs0 e r f =>
      cases k with
      | zero => omega
      | succ j =>
        simp only [List.take_succ_cons]
        show ∃ n, walkTrie (Trie.mk _ e r f) (c :: cs.take j) = some n ∧ _
        rw [walkTrie_cons]
        simp only [Trie.children]
        rw [lookupChild_setChild_self, Option.some_bind]
        rcases Nat.eq_zero_or_pos j with hj | hj
        · subst hj
          simp only [List.take_zero]
          refine ⟨_, rfl, ?_⟩
          rw [insertAux_file_references]
          simp only [Trie.file_references]
          exact mem_addId_self _ id
        · have hlen : j ≤ cs.length := by
            simp only [List.length_cons] at h2; omega
          exact ih j _ hj hlen

/-- C1: after `insert_word(w, id)`, `exact_prefix_search(w[:k])` contains
`id` for every `k` in `[1, len(w)]`; and when some character of the query
cannot be matched walking from the root, `exact_prefix_search` returns the
empty set. -/
theorem C1_insert_exact_prefix :
    (∀ (t : Trie) (w : List Char) (id : Int) (k : Nat), 1 ≤ k → k ≤ w.length →
      id ∈ exact_prefix_search (insert_word t w id) (w.take k)) ∧
    (∀ (t : Trie) (pre : List Char), walkTrie t (lowerStr pre) = none →
      exact_prefix_search t pre = []) := by
  constructor
  · intro t w id k h1 h2
    unfold exact_prefix_search insert_word
    have hmap : lowerStr (w.take k) = (lowerStr w).take k := by
      simp [lowerStr, List.map_take]
    rw [hmap]
    have hlen : k ≤ (lowerStr w).length := by simp [lowerStr]; omega
    obtain ⟨n, hw, hm⟩ := insert_walk_mem id (lowerStr w) k t h1 hlen
    rw [hw]
    exact mem_collectFiles_of_refs n id hm
  · intro t pre h
    unfold exact_prefix_search
    rw [h]

/-- Witness for `C1_insert_exact_prefix` at a concrete input. -/
theorem C1_witness :
    1 ≤ 2 ∧ 2 ≤ ("ab".toList).length ∧
    (7 : Int) ∈ exact_prefix_search (insert_word emptyNode "ab".toList 7)
      (("ab".toList).take 2) ∧
    walkTrie emptyNode (lowerStr "zz".toList) = none ∧
    exact_prefix_search emptyNode "zz".toList = [] :=
  ⟨by decide, by decide,
    C1_insert_exact_prefix.1 emptyNode "ab".toList 7 2 (by decide) (by decide),
    by rfl,
    C1_insert_exact_prefix.2 emptyNode "zz".toList (by rfl)⟩

theorem walkTrie_children_only (A : List (Char × Trie)) (e1 e2 : Bool)
    (r1 r2 : List Int) (f1 f2 : Nat) (c : Char) (p : List Char) :
    walkTrie (.mk A e1 r1 f1) (c :: p) = walkTrie (.mk A e2 r2 f2) (c :: p) := rfl

theorem freqAt_nil (t : Trie) : freqAt t [] = t.frequency := rfl

/-- Re-inserting bumps the frequency of every node on the (lowercased)
path by exactly one, relative to the trie before the insertion. -/
theorem insertAux_freqAt (id : Int) :
    ∀ (w : List Char) (k : Nat) (t : Trie), 1 ≤ k → k ≤ w.length →
      freqAt (insertAux w id t) (w.take k) = freqAt t (w.take k) + 1 := by
  intro w
  induction w with
  | nil => intro k t h1 h2; simp at h2; omega
  | cons c cs ih =>
    intro k t h1 h2
    obtain ⟨cs0, e, r, f⟩ := t
    cases k with
    | zero => omega
    | succ j =>
      rw [insertAux_cons]
      simp only [List.take_succ_cons]
      unfold freqAt
      rw [walkTrie_cons, walkTrie_cons]
      simp only [Trie.children_mk]
      rw [lookupChild_setChild_self, Option.some_bind]
      cases hc : lookupChild cs0 c with
      | none =>
        simp only [Option.getD_none]
        rcases Nat.eq_zero_or_pos j with hj | hj
        · subst hj
          simp only [List.take_zero, walkTrie_nil, Option.none_bind,
            Option.map_some', Option.map_none', Option.getD_some, Option.getD_none]
          rw [insertAux_frequency]
          rfl
        · have hlen : j ≤ cs.length := by
            simp only [List.length_cons] at h2; omega
          have hstep := ih j (Trie.mk emptyNode.children emptyNode.is_end_of_word
            (addId emptyNode.file_references id) (emptyNode.frequency + 1)) hj hlen
          unfold freqAt at hstep
          rw [hstep]
          simp only [Option.none_bind, Option.map_none', Option.getD_none]
          -- walking the fresh (empty-children) node along a nonempty path fails
          obtain ⟨c1, cs1, htake⟩ : ∃ c1 cs1, cs.take j = c1 :: cs1 := by
            cases hcs : cs with
            | nil => rw [hcs] at hlen; simp at hlen; omega
            | cons a as =>
              cases j with
              | zero => omega
              | succ j2 => exact ⟨a, as.take j2, by simp⟩
          rw [htake, walkTrie_cons]
          rfl
      | some u =>
        simp only [Option.getD_some, Option.some_bind]
        rcases Nat.eq_zero_or_pos j with hj | hj
        · subst hj
          simp only [List.take_zero, walkTrie_nil, Option.map_some', Option.getD_some]
          rw [insertAux_frequency]
          rfl
        · have hlen : j ≤ cs.length := by
            simp only [List.length_cons] at h2; omega
          have hstep := ih j (Trie.mk u.children u.is_end_of_word
            (addId u.file_references id) (u.frequency + 1)) hj hlen
          unfold freqAt at hstep
          rw [hstep]
          obtain ⟨c1, cs1, htake⟩ : ∃ c1 cs1, cs.take j = c1 :: cs1 := by
            cases hcs : cs with
            | nil => rw [hcs] at hlen; simp at hlen; omega
            | cons a as =>
              cases j with
              | zero => omega
              | succ j2 => exact ⟨a, as.take j2, by simp⟩
          rw [htake]
          obtain ⟨cu, eu, ru, fu⟩ := u
          rfl

/-- Any insertion can only increase the frequency stored at any path. -/
theorem insertAux_freqAt_mono (id : Int) :
    ∀ (p w : List Char) (t : Trie), freqAt t p ≤ freqAt (insertAux w id t) p := by
  intro p
  induction p with
  | nil =>
    intro w t
    rw [freqAt_nil, freqAt_nil, insertAux_frequency]
  | cons c ps ih =>
    intro w t
    obtain ⟨cs0, e, r, f⟩ := t
    cases w with
    | nil => exact le_rfl
    | cons c' cs =>
      rw [insertAux_cons]
      unfold freqAt
      rw [walkTrie_cons, walkTrie_cons]
      simp only [Trie.children_mk]
      rcases eq_or_ne c' c with hcc | hcc
      · subst hcc
        rw [lookupChild_setChild_self, Option.some_bind]
        cases hc : lookupChild cs0 c' with
        | none => simp
        | some u =>
          simp only [Option.getD_some, Option.some_bind]
          have h1 : freqAt u ps ≤
              freqAt (Trie.mk u.children u.is_end_of_word
                (addId u.file_references id) (u.frequency + 1)) ps := by
            cases ps with
            | nil =>
              rw [freqAt_nil, freqAt_nil]
              obtain ⟨cu, eu, ru, fu⟩ := u
              simp [Trie.frequency]
            | cons d ds =>
              obtain ⟨cu, eu, ru, fu⟩ := u
              exact le_rfl
          have h2 := ih cs (Trie.mk u.children u.is_end_of_word
            (addId u.file_references id) (u.frequency + 1))
          unfold freqAt at h1 h2
          omega
      · rw [lookupChild_setChild_ne _ _ _ _ hcc]

theorem setChild_cons (c' : Char) (t' : Trie) (rest : List (Char × Trie))
    (c : Char) (u : Trie) :
    setChild ((c', t') :: rest) c u =
      if c' = c then (c, u) :: rest else (c', t') :: setChild rest c u := rfl

theorem lookupChild_cons (c' : Char) (t' : Trie) (rest : List (Char × Trie))
    (d : Char) :
    lookupChild ((c', t') :: rest) d =
      if c' = d then some t' else lookupChild rest d := rfl

theorem eraseFreqList_nil : eraseFreqList [] = [] := by rw [eraseFreqList]

theorem eraseFreqList_cons (c : Char) (u : Trie) (rest : List (Char × Trie)) :
    eraseFreqList ((c, u) :: rest) = (c, eraseFreq u) :: eraseFreqList rest := by
  rw [eraseFreqList]

/-- Forgetting frequencies commutes with the child update. -/
theorem eraseFreqList_setChild (cs : List (Char × Trie)) (c : Char) (u : Trie) :
    eraseFreqList (setChild cs c u) = setChild (eraseFreqList cs) c (eraseFreq u) := by
  induction cs with
  | nil =>
    rw [eraseFreqList_nil]
    show eraseFreqList [(c, u)] = [(c, eraseFreq u)]
    rw [eraseFreqList_cons, eraseFreqList_nil]
  | cons p rest ih =>
    obtain ⟨c', t'⟩ := p
    rw [setChild_cons, eraseFreqList_cons]
    by_cases h : c' = c
    · rw [if_pos h, eraseFreqList_cons, setChild_cons, if_pos h]
    · rw [if_neg h, eraseFreqList_cons, setChild_cons, if_neg h, ih]

theorem lookup_eraseFreqList (cs : List (Char × Trie)) (c : Char) :
    lookupChild (eraseFreqList cs) c = (lookupChild cs c).map eraseFreq := by
  induction cs with
  | nil => rw [eraseFreqList_nil]; rfl
  | cons p rest ih =>
    obtain ⟨c', t'⟩ := p
    rw [eraseFreqList_cons, lookupChild_cons, lookupChild_cons]
    by_cases h : c' = c
    · rw [if_pos h, if_pos h]; rfl
    · rw [if_neg h, if_neg h, ih]

theorem setChild_setChild (cs : List (Char × Trie)) (c : Char) (u v : Trie) :
    setChild (setChild cs c u) c v = setChild cs c v := by
  induction cs with
  | nil =>
    show setChild [(c, u)] c v = [(c, v)]
    rw [setChild_cons, if_pos rfl]
  | cons p rest ih =>
    obtain ⟨c', t'⟩ := p
    rw [setChild_cons]
    by_cases h : c' = c
    · rw [if_pos h, setChild_cons, if_pos rfl, setChild_cons, if_pos h]
    · rw [if_neg h, setChild_cons, if_neg h, setChild_cons, if_neg h, ih]

theorem eraseFreq_mk (cs : List (Char × Trie)) (e : Bool) (r : List Int) (f : Nat) :
    eraseFreq (.mk cs e r f) = .mk (eraseFreqList cs) e r 0 := by
  rw [eraseFreq]

theorem eraseFreq_retop (t : Trie) (n : Nat) :
    eraseFreq (.mk t.children t.is_end_of_word t.file_references n) = eraseFreq t := by
  obtain ⟨cs, e, r, f⟩ := t
  simp only [Trie.children_mk, Trie.is_end_of_word_mk, Trie.file_references_mk]
  rw [eraseFreq_mk, eraseFreq_mk]

theorem eraseFreq_bump_congr (u v : Trie) (id : Int) (h : eraseFreq u = eraseFreq v) :
    eraseFreq (Trie.mk u.children u.is_end_of_word
      (addId u.file_references id) (u.frequency + 1)) =
    eraseFreq (Trie.mk v.children v.is_end_of_word
      (addId v.file_references id) (v.frequency + 1)) := by
  obtain ⟨cu, eu, ru, fu⟩ := u
  obtain ⟨cv, ev, rv, fv⟩ := v
  rw [eraseFreq_mk, eraseFreq_mk] at h
  injection h with g1 g2 g3 _
  simp only [Trie.children_mk, Trie.is_end_of_word_mk, Trie.file_references_mk,
    Trie.frequency_mk]
  rw [eraseFreq_mk, eraseFreq_mk, g1, g2, g3]

/-- Inserting into trees that agree after forgetting frequencies yields
trees that agree after forgetting frequencies. -/
theorem insertAux_eraseFreq_congr (id : Int) :
    ∀ (w : List Char) (s t : Trie), eraseFreq s = eraseFreq t →
      eraseFreq (insertAux w id s) = eraseFreq (insertAux w id t) := by
  intro w
  induction w with
  | nil =>
    intro s t h
    obtain ⟨cs, e, r, f⟩ := s
    obtain ⟨cs', e', r', f'⟩ := t
    rw [eraseFreq_mk, eraseFreq_mk] at h
    injection h with h1 h2 h3 _
    show eraseFreq (.mk cs true r f) = eraseFreq (.mk cs' true r' f')
    rw [eraseFreq_mk, eraseFreq_mk, h1, h3]
  | cons c w' ih =>
    intro s t h
    obtain ⟨cs, e, r, f⟩ := s
    obtain ⟨cs', e', r', f'⟩ := t
    rw [eraseFreq_mk, eraseFreq_mk] at h
    injection h with h1 h2 h3 _
    have hlk : (lookupChild cs c).map eraseFreq = (lookupChild cs' c).map eraseFreq := by
      rw [← lookup_eraseFreqList, ← lookup_eraseFreqList, h1]
    have hchild : eraseFreq ((lookupChild cs c).getD emptyNode) =
        eraseFreq ((lookupChild cs' c).getD emptyNode) := by
      cases ha : lookupChild cs c with
      | none =>
        cases hb : lookupChild cs' c with
        | none => rfl
        | some u => rw [ha, hb] at hlk; simp at hlk
      | some u =>
        cases hb : lookupChild cs' c with
        | none => rw [ha, hb] at hlk; simp at hlk
        | some v =>
          rw [ha, hb] at hlk
          simp only [Option.map_some', Option.some.injEq] at hlk
          simpa using hlk
    have hbump := eraseFreq_bump_congr _ _ id hchild
    have hrec := ih _ _ hbump
    show eraseFreq (.mk (setChild cs c _) e r f) = eraseFreq (.mk (setChild cs' c _) e' r' f')
    rw [eraseFreq_mk, eraseFreq_mk, eraseFreqList_setChild, eraseFreqList_setChild,
      h1, h2, h3, hrec]

/-- Re-inserting the same `(word, id)` changes nothing except
frequencies. -/
theorem insertAux_idem (id : Int) :
    ∀ (w : List Char) (t : Trie),
      eraseFreq (insertAux w id (insertAux w id t)) = eraseFreq (insertAux w id t) := by
  intro w
  induction w with
  | nil =>
    intro t
    obtain ⟨cs, e, r, f⟩ := t
    rfl
  | cons c w' ih =>
    intro t
    obtain ⟨cs, e, r, f⟩ := t
    have hsetc := lookupChild_setChild_self cs c
      (insertAux w' id
        (Trie.mk ((lookupChild cs c).getD emptyNode).children
          ((lookupChild cs c).getD emptyNode).is_end_of_word
          (addId ((lookupChild cs c).getD emptyNode).file_references id)
          (((lookupChild cs c).getD emptyNode).frequency + 1)))
    rw [insertAux_cons, insertAux_cons, hsetc]
    simp only [Option.getD_some]
    set X := insertAux w' id
      (Trie.mk ((lookupChild cs c).getD emptyNode).children
        ((lookupChild cs c).getD emptyNode).is_end_of_word
        (addId ((lookupChild cs c).getD emptyNode).file_references id)
        (((lookupChild cs c).getD emptyNode).frequency + 1)) with hX
    rw [eraseFreq_mk, setChild_setChild, eraseFreqList_setChild]
    conv_rhs => rw [eraseFreq_mk, eraseFreqList_setChild]
    have hrefs : id ∈ X.file_references := by
      rw [hX, insertAux_file_references]
      exact mem_addId_self _ id
    have hbumpX : eraseFreq (Trie.mk X.children X.is_end_of_word
        (addId X.file_references id) (X.frequency + 1)) = eraseFreq X := by
      rw [addId_of_mem _ _ hrefs]
      exact eraseFreq_retop X (X.frequency + 1)
    have heq : eraseFreq (insertAux w' id (Trie.mk X.children X.is_end_of_word
        (addId X.file_references id) (X.frequency + 1))) = eraseFreq X := by
      calc eraseFreq (insertAux w' id (Trie.mk X.children X.is_end_of_word
            (addId X.file_references id) (X.frequency + 1)))
          = eraseFreq (insertAux w' id X) := insertAux_eraseFreq_congr id w' _ _ hbumpX
        _ = eraseFreq X := by rw [hX]; exact ih _
    rw [heq]

/-- C9: re-inserting an already-indexed `(token, id)` pair leaves the trie
structure, end-of-word marks and every posting list unchanged (captured by
equality after forgetting frequency counters), while incrementing the
frequency of every node on the token's path by exactly `1`; and no insert
ever decreases a frequency counter anywhere. -/
theorem C9_reinsert :
    (∀ (t : Trie) (w : List Char) (id : Int),
      eraseFreq (insert_word (insert_word t w id) w id) =
        eraseFreq (insert_word t w id)) ∧
    (∀ (t : Trie) (w : List Char) (id : Int) (k : Nat), 1 ≤ k → k ≤ w.length →
      freqAt (insert_word (insert_word t w id) w id) ((lowerStr w).take k) =
        freqAt (insert_word t w id) ((lowerStr w).take k) + 1) ∧
    (∀ (t : Trie) (w : List Char) (id : Int) (p : List Char),
      freqAt t p ≤ freqAt (insert_word t w id) p) := by
  refine ⟨?_, ?_, ?_⟩
  · intro t w id
    exact insertAux_idem id (lowerStr w) t
  · intro t w id k h1 h2
    have hlen : k ≤ (lowerStr w).length := by simp [lowerStr]; omega
    exact insertAux_freqAt id (lowerStr w) k (insertAux (lowerStr w) id t) h1 hlen
  · intro t w id p
    exact insertAux_freqAt_mono id p (lowerStr w) t

/-- Witness for `C9_reinsert` at a concrete input. -/
theorem C9_witness :
    1 ≤ 2 ∧ 2 ≤ ("ab".toList).length ∧
    eraseFreq (insert_word (insert_word emptyNode "ab".toList 7) "ab".toList 7) =
      eraseFreq (insert_word emptyNode "ab".toList 7) ∧
    freqAt (insert_word (insert_word emptyNode "ab".toList 7) "ab".toList 7)
        ((lowerStr "ab".toList).take 2) =
      freqAt (insert_word emptyNode "ab".toList 7) ((lowerStr "ab".toList).take 2) + 1 ∧
    freqAt emptyNode ['a'] ≤ freqAt (insert_word emptyNode "ab".toList 7) ['a'] :=
  ⟨by decide, by decide,
    C9_reinsert.1 emptyNode "ab".toList 7,
    C9_reinsert.2.1 emptyNode "ab".toList 7 2 (by decide) (by decide),
    C9_reinsert.2.2 emptyNode "ab".toList 7 ['a']⟩

/-!  ## Fuzzy search on the empty prefix (C3) -/

theorem lev_empty_right (w : List Char) (maxd : Nat) :
    levenshtein_distance w [] maxd = if maxd < w.length then maxd + 1 else w.length := by
  unfold levenshtein_distance levCore
  simp only [List.length_nil, Nat.dist_zero_right]
  split
  · rfl
  · rw [if_neg (by omega : ¬ w.length < 0)]
    rfl

theorem collectUpToList_nil (n : Nat) : collectUpToList n [] = [] := by
  rw [collectUpToList]

theorem collectUpToList_cons (n : Nat) (c : Char) (u : Trie)
    (rest : List (Char × Trie)) :
    collectUpToList n ((c, u) :: rest) =
      (u.file_references ++ collectUpTo n u) ++ collectUpToList n rest := by
  rw [collectUpToList]

theorem collectUpTo_succ (n : Nat) (cs : List (Char × Trie)) (e : Bool)
    (r : List Int) (f : Nat) :
    collectUpTo (n + 1) (.mk cs e r f) = collectUpToList n cs := by
  rw [collectUpTo]

theorem dfsChildren_empty_aux (maxd N : Nat)
    (rec : ∀ (u : Trie), sizeOf u ≤ N →
      ∀ (w : List Char) (dist : Nat) (acc : List Int), dist ≤ maxd →
        (w.length ≤ maxd → ∀ id, id ∈ dfsFuzzy [] maxd u w dist acc ↔
          id ∈ acc ∨ id ∈ u.file_references ∨ id ∈ collectUpTo (maxd - w.length) u) ∧
        (maxd < w.length → dfsFuzzy [] maxd u w dist acc = acc)) :
    ∀ (cs : List (Char × Trie)), sizeOf cs ≤ N →
      ∀ (w : List Char) (acc : List Int), w.length ≤ maxd →
        (w.length < maxd →
          ∀ id, id ∈ dfsChildren [] maxd cs w w.length acc ↔
            id ∈ acc ∨ id ∈ collectUpToList (maxd - (w.length + 1)) cs) ∧
        (w.length = maxd → dfsChildren [] maxd cs w w.length acc = acc) := by
  intro cs
  induction cs with
  | nil =>
    intro hsz w acc hw
    constructor
    · intro hlt id
      rw [dfsChildren, collectUpToList_nil]
      simp
    · intro heq
      rw [dfsChildren]
  | cons p rest ih =>
    obtain ⟨c, u⟩ := p
    intro hsz w acc hw
    have hszu : sizeOf u ≤ N := by
      simp only [List.cons.sizeOf_spec, Prod.mk.sizeOf_spec] at hsz
      omega
    have hszr : sizeOf rest ≤ N := by
      simp only [List.cons.sizeOf_spec, Prod.mk.sizeOf_spec] at hsz
      omega
    constructor
    · intro hlt id
      rw [dfsChildren]
      have hchild := (rec u hszu (w ++ [c]) w.length acc hw).1
        (by simp only [List.length_append, List.length_cons, List.length_nil]; omega) id
      have hrest := (ih hszr w (dfsFuzzy [] maxd u (w ++ [c]) w.length acc) hw).1 hlt id
      rw [hrest, hchild, collectUpToList_cons]
      have hlen : (w ++ [c]).length = w.length + 1 := by simp
      rw [hlen]
      simp only [List.mem_append]
      tauto
    · intro heq
      rw [dfsChildren]
      have hchild := (rec u hszu (w ++ [c]) w.length acc hw).2
        (by simp only [List.length_append, List.length_cons, List.length_nil]; omega)
      rw [hchild]
      exact (ih hszr w acc hw).2 heq

theorem dfs_empty_spec (maxd : Nat) :
    ∀ (N : Nat) (t : Trie), sizeOf t ≤ N →
      ∀ (w : List Char) (dist : Nat) (acc : List Int), dist ≤ maxd →
        (w.length ≤ maxd → ∀ id, id ∈ dfsFuzzy [] maxd t w dist acc ↔
          id ∈ acc ∨ id ∈ t.file_references ∨ id ∈ collectUpTo (maxd - w.length) t) ∧
        (maxd < w.length → dfsFuzzy [] maxd t w dist acc = acc) := by
  intro N
  induction N with
  | zero =>
    intro t ht
    exfalso
    obtain ⟨cs, e, r, f⟩ := t
    simp only [Trie.mk.sizeOf_spec] at ht
    omega
  | succ N ihN =>
    intro t ht w dist acc hdist
    obtain ⟨cs, e, r, f⟩ := t
    have hszcs : sizeOf cs ≤ N := by
      simp only [Trie.mk.sizeOf_spec] at ht
      omega
    rw [dfsFuzzy]
    rw [if_neg (by omega : ¬ maxd < dist)]
    simp only [List.take_nil]
    rw [lev_empty_right]
    constructor
    · intro hw id
      rw [if_neg (by omega : ¬ maxd < w.length)]
      rw [if_pos (Or.inl hw : w.length ≤ maxd ∨ w.length < ([] : List Char).length)]
      rw [if_pos (⟨by simp, hw⟩ : ([] : List Char).length ≤ w.length ∧ w.length ≤ maxd)]
      simp only [Trie.children_mk, Trie.file_references_mk]
      rcases Nat.lt_or_ge w.length maxd with hlt | hge
      · have haux := (dfsChildren_empty_aux maxd N (fun u hu => ihN u hu) cs hszcs w
          (addIds acc r) hw).1 hlt id
        rw [haux, mem_addIds_iff]
        obtain ⟨m, hm⟩ : ∃ m, maxd - w.length = m + 1 := ⟨maxd - w.length - 1, by omega⟩
        rw [hm, collectUpTo_succ]
        have : maxd - (w.length + 1) = m := by omega
        rw [this]
        tauto
      · have heq : w.length = maxd := by omega
        have haux := (dfsChildren_empty_aux maxd N (fun u hu => ihN u hu) cs hszcs w
          (addIds acc r) hw).2 heq
        rw [haux, mem_addIds_iff]
        have : maxd - w.length = 0 := by omega
        rw [this]
        rw [collectUpTo]
        simp only [List.not_mem_nil, or_false]
    · intro hw
      rw [if_pos hw]
      rw [if_neg (by omega : ¬ ((([] : List Char)).length ≤ w.length ∧ maxd + 1 ≤ maxd))]
      rw [if_neg (by simp only [List.length_nil]; omega : ¬ (maxd + 1 ≤ maxd ∨ w.length < (([] : List Char)).length))]

/-- C3 (amended): on the empty prefix, `fuzzy_search_trie` does **not**
return the empty set; it returns exactly the union of the postings of
every trie node at depth at most `max_distance` (the root's own postings
plus `collectUpTo`).  With at least one indexed file and
`max_distance ≥ 1` this is nonempty (see `C3_counterexample`). -/
theorem C3_fuzzy_empty_amended (t : Trie) (maxd : Nat) (id : Int) :
    id ∈ fuzzy_search_trie t "".toList maxd ↔
      id ∈ t.file_references ∨ id ∈ collectUpTo maxd t := by
  have h := (dfs_empty_spec maxd (sizeOf t) t le_rfl [] 0 [] (Nat.zero_le _)).1
    (Nat.zero_le _) id
  show id ∈ dfsFuzzy [] maxd t [] 0 [] ↔ _
  rw [h]
  simp

/-- C3 counterexample: an engine with one indexed file (name `a`) and
`max_distance = 1`; fuzzy search on the empty prefix returns that file,
not the empty set. -/
theorem C3_counterexample :
    (1 : Int) ∈ fuzzy_search_trie engC3.root "".toList 1 ∧
    fuzzy_search_trie engC3.root "".toList 1 ≠ [] := by
  constructor
  · decide
  · decide

/-!  ## C6 (malformed filter values), C7 (limit), C8 (select), C10 (dates) -/

/-- C6: the claim says malformed filter values never raise.  That holds for
a non-numeric `@size:` value (the token survives as a search term), but a
digit-shaped yet invalid `@date:` value reaches `datetime.strptime`, whose
`ValueError` is uncaught: `parse_advanced_filters("@date:2024-13-45")`
raises (modelled as `none`). -/
theorem C6_malformed_date_raises :
    parse_advanced_filters "@date:2024-13-45".toList = none ∧
    parse_advanced_filters "@size:big x".toList =
      some { type := none, size_min := none, size_max := none, date_from := none,
             date_to := none, extension := none,
             search_terms := ["@size:big".toList, "x".toList] } := by
  constructor
  · decide
  · decide

theorem lookup_setAssoc_self {β : Type} (l : List (Int × β)) (i : Int) (v : β) :
    lookupId (setAssoc l i v) i = some v := by
  induction l with
  | nil => simp [setAssoc, lookupId]
  | cons p rest ih =>
    obtain ⟨k, w⟩ := p
    unfold setAssoc
    split
    · simp [lookupId]
    · rename_i h
      unfold lookupId
      rw [if_neg h]
      exact ih

theorem pySlice_length_le {β : Type} (l : List β) (k : Int) (hk : 0 ≤ k) :
    ((pySlice l k).length : Int) ≤ k := by
  unfold pySlice
  rw [if_neg (by omega : ¬ k < 0)]
  have := List.length_take k.toNat l
  omega

theorem pySlice_zero {β : Type} (l : List β) : pySlice l 0 = [] := by
  unfold pySlice
  rfl

/-- C7 (amended): `search` raises for a given query independently of
`limit` (its only failure is the parser's, which never sees `limit`); for
`limit ≥ 0` the result holds at most `limit` entries, and `limit = 0`
yields no results.  For a negative `limit`, however, Python's
`scored_results[:limit]` drops only the last `|limit|` entries, so the
original claim's "`limit <= 0` returns no results" fails
(`C7_counterexample`). -/
theorem C7_limit_amended (eng : Engine) (now : Int) (q : List Char) (l : Int)
    (fz : Bool) :
    ((search eng now q l fz).isSome ↔ (search eng now q 0 fz).isSome) ∧
    (0 ≤ l → ∀ res, search eng now q l fz = some res → (res.length : Int) ≤ l) ∧
    (l = 0 → ∀ res, search eng now q l fz = some res → res = []) := by
  unfold search
  by_cases hq : q.isEmpty ∨ (pyStrip q).isEmpty
  · rw [if_pos hq, if_pos hq]
    refine ⟨Iff.rfl, ?_, ?_⟩
    · intro hl res hres
      cases hres
      simpa using hl
    · intro hl res hres
      cases hres
      rfl
  · rw [if_neg hq, if_neg hq]
    cases hp : parse_advanced_filters q with
    | none =>
      refine ⟨Iff.rfl, ?_, ?_⟩
      · intro _ res h
        exact Option.noConfusion h
      · intro _ res h
        exact Option.noConfusion h
    | some F =>
      refine ⟨by simp, ?_, ?_⟩
      · intro hl res hres
        simp only [Option.some.injEq] at hres
        subst hres
        exact pySlice_length_le _ l hl
      · intro hl res hres
        subst hl
        simp only [Option.some.injEq] at hres
        subst hres
        exact pySlice_zero _

/-- C7 counterexample: with two indexed records matching `nota` and
`limit = -1`, `search` returns one result, not the empty list demanded for
`limit ≤ 0` (Python's `[:-1]` keeps all but the last element). -/
theorem C7_counterexample :
    (search engC7 0 "nota".toList (-1) false).map List.length = some 1 ∧
    ¬ ((1 : Int) ≤ max (-1 : Int) 0) := by
  constructor
  · decide
  · decide

/-- Witness for `C7_limit_amended` at a concrete input. -/
theorem C7_witness :
    ((search engC7 0 "nota".toList 5 false).isSome ↔
      (search engC7 0 "nota".toList 0 false).isSome) ∧
    (0 : Int) ≤ 5 ∧
    search engC7 0 "nota".toList 5 false =
      some [{ id := 1, search_score := 150, match_type := MatchType.exact },
            { id := 2, search_score := 130, match_type := MatchType.exact }] ∧
    ((([{ id := 1, search_score := 150, match_type := MatchType.exact },
        { id := 2, search_score := 130, match_type := MatchType.exact }] :
        List SearchResult).length : Int) ≤ 5) :=
  ⟨(C7_limit_amended engC7 0 "nota".toList 5 false).1, by decide, by decide,
    (C7_limit_amended engC7 0 "nota".toList 5 false).2.1 (by decide) _ (by decide)⟩

/-- `record_interaction` with type `"select"` and no query bumps
`search_selections` and stamps `last_accessed`. -/
theorem record_interaction_select (eng : Engine) (id t : Int) :
    record_interaction eng id "select".toList none t =
      { root := eng.root, files_index := eng.files_index,
        user_interactions := setAssoc eng.user_interactions id
          { view_count :=
              ((lookupId eng.user_interactions id).getD defaultInteraction).view_count,
            download_count :=
              ((lookupId eng.user_interactions id).getD defaultInteraction).download_count,
            search_selections :=
              ((lookupId eng.user_interactions id).getD
                defaultInteraction).search_selections + 1,
            last_accessed := some t,
            search_queries :=
              ((lookupId eng.user_interactions id).getD
                defaultInteraction).search_queries } } :=
  rfl

/-- C8: recording one `select` interaction (with no query attached) raises
the score of an identical subsequent query by exactly `10`, provided the
record is indexed and the recency contribution is unchanged (the
interaction also sets `last_accessed`, so the day-boundary contribution is
held constant by hypothesis, as the claim stipulates). -/
theorem C8_select_adds_ten (eng : Engine) (id : Int) (q : List Char)
    (mt : MatchType) (t now : Int)
    (hfile : (lookupId eng.files_index id).isSome = true)
    (hday : recencyBonus now (some t) =
      recencyBonus now
        ((lookupId eng.user_interactions id).getD defaultInteraction).last_accessed) :
    calculate_score (record_interaction eng id "select".toList none t) now id q mt =
      calculate_score eng now id q mt + 10 := by
  rw [record_interaction_select]
  unfold calculate_score
  dsimp only
  cases hf : lookupId eng.files_index id with
  | none => rw [hf] at hfile; exact absurd hfile (by simp)
  | some fd =>
    dsimp only
    rw [lookup_setAssoc_self]
    simp only [Option.getD_some]
    rw [hday]
    push_cast
    ring

/-- Witness for `C8_select_adds_ten` at a concrete input. -/
theorem C8_witness :
    ((lookupId engC3.files_index 1).isSome = true) ∧
    (recencyBonus (7 * 86400) (some 0) =
      recencyBonus (7 * 86400)
        ((lookupId engC3.user_interactions 1).getD defaultInteraction).last_accessed) ∧
    calculate_score (record_interaction engC3 1 "select".toList none 0) (7 * 86400) 1
        "q".toList MatchType.exact =
      calculate_score engC3 (7 * 86400) 1 "q".toList MatchType.exact + 10 :=
  ⟨by decide, by decide,
    C8_select_adds_ten engC3 1 "q".toList MatchType.exact 0 (7 * 86400)
      (by decide) (by decide)⟩

/-- C10: when a record's `uploaded_at` is absent, or is a string
`fromisoformat` cannot parse, `apply_filters` gives the same verdict with
and without the date bounds - date filters constrain only records with a
parsable `uploaded_at`, and such records are retained. -/
theorem C10_unparsable_date_retained (eng : Engine) (id : Int) (F : Filters)
    (h : ∀ fd, lookupId eng.files_index id = some fd →
      fd.uploaded_at.bind parseIso = none) :
    apply_filters eng id F =
      apply_filters eng id
        { F with date_from := none, date_to := none } := by
  unfold apply_filters
  cases hf : lookupId eng.files_index id with
  | none => rfl
  | some fd =>
    have hp := h fd hf
    obtain ⟨ty, smin, smax, dfrom, dto, ext, terms⟩ := F
    simp only [hp, ite_self]

/-- Witness for `C10_unparsable_date_retained` at a concrete input. -/
theorem C10_witness :
    (∀ fd, lookupId engC10.files_index 1 = some fd →
      fd.uploaded_at.bind parseIso = none) ∧
    apply_filters engC10 1
        { type := none, size_min := none, size_max := none,
          date_from := some (dateEncode 2024 1 1), date_to := none,
          extension := none, search_terms := [] } =
      apply_filters engC10 1
        { type := none, size_min := none, size_max := none,
          date_from := none, date_to := none,
          extension := none, search_terms := [] } := by
  have hyp : ∀ fd, lookupId engC10.files_index 1 = some fd →
      fd.uploaded_at.bind parseIso = none := by
    intro fd hfd
    have heq : some fdBadDate = some fd := hfd
    cases heq
    decide
  exact ⟨hyp, C10_unparsable_date_retained engC10 1 _ hyp⟩

/-!  ## C4: candidate generation in `search` -/

theorem lookupId_nil {β : Type} (id : Int) :
    lookupId ([] : List (Int × β)) id = none := rfl

theorem lookupId_cons {β : Type} (k : Int) (w : β) (rest : List (Int × β)) (id : Int) :
    lookupId ((k, w) :: rest) id = if k = id then some w else lookupId rest id := rfl

theorem lookupId_append_left {β : Type} (l l2 : List (Int × β)) (id : Int) (v : β)
    (h : lookupId l id = some v) : lookupId (l ++ l2) id = some v := by
  induction l with
  | nil => rw [lookupId_nil] at h; cases h
  | cons p rest ih =>
    obtain ⟨k, w⟩ := p
    rw [lookupId_cons] at h
    rw [List.cons_append, lookupId_cons]
    by_cases hk : k = id
    · rw [if_pos hk] at h ⊢; exact h
    · rw [if_neg hk] at h ⊢; exact ih h

theorem lookupId_append_single {β : Type} (l : List (Int × β)) (i id : Int) (w : β)
    (h : lookupId l id = none) :
    lookupId (l ++ [(i, w)]) id = if i = id then some w else none := by
  induction l with
  | nil => rw [List.nil_append, lookupId_cons, lookupId_nil]
  | cons p rest ih =>
    obtain ⟨k, v⟩ := p
    rw [lookupId_cons] at h
    by_cases hk : k = id
    · rw [if_pos hk] at h; cases h
    · rw [if_neg hk] at h
      rw [List.cons_append, lookupId_cons, if_neg hk]
      exact ih h

theorem addCandidates_nil (m : List (Int × MatchType)) (mt : MatchType) :
    addCandidates m [] mt = m := rfl

theorem addCandidates_cons (m : List (Int × MatchType)) (i : Int) (ids : List Int)
    (mt : MatchType) :
    addCandidates m (i :: ids) mt =
      addCandidates (if (lookupId m i).isSome then m else m ++ [(i, mt)]) ids mt := rfl

theorem lookupId_addCandidates_preserve (ids : List Int) (m : List (Int × MatchType))
    (mt : MatchType) (id : Int) (v : MatchType) (h : lookupId m id = some v) :
    lookupId (addCandidates m ids mt) id = some v := by
  induction ids generalizing m with
  | nil => rw [addCandidates_nil]; exact h
  | cons i ids ih =>
    rw [addCandidates_cons]
    by_cases hi : (lookupId m i).isSome
    · rw [if_pos hi]; exact ih m h
    · rw [if_neg hi]
      exact ih _ (lookupId_append_left m _ id v h)

theorem lookupId_addCandidates_not_mem (ids : List Int) (m : List (Int × MatchType))
    (mt : MatchType) (id : Int) (h : lookupId m id = none) (hm : id ∉ ids) :
    lookupId (addCandidates m ids mt) id = none := by
  induction ids generalizing m with
  | nil => rw [addCandidates_nil]; exact h
  | cons i ids ih =>
    rw [addCandidates_cons]
    have hne : i ≠ id := fun he => hm (List.mem_cons.mpr (Or.inl he.symm))
    have hrest : id ∉ ids := fun hr => hm (List.mem_cons_of_mem i hr)
    by_cases hi : (lookupId m i).isSome
    · rw [if_pos hi]; exact ih m h hrest
    · rw [if_neg hi]
      refine ih _ ?_ hrest
      rw [lookupId_append_single m i id mt h, if_neg hne]

theorem lookupId_addCandidates_mem (ids : List Int) (m : List (Int × MatchType))
    (mt : MatchType) (id : Int) (h : lookupId m id = none) (hm : id ∈ ids) :
    lookupId (addCandidates m ids mt) id = some mt := by
  induction ids generalizing m with
  | nil => cases hm
  | cons i ids ih =>
    rw [addCandidates_cons]
    by_cases hii : i = id
    · subst hii
      rw [if_neg (by rw [h]; simp)]
      refine lookupId_addCandidates_preserve ids _ mt i mt ?_
      rw [lookupId_append_single m i i mt h, if_pos rfl]
    · rcases List.mem_cons.mp hm with he | hr
      · exact absurd he.symm hii
      · by_cases hi : (lookupId m i).isSome
        · rw [if_pos hi]; exact ih _ h hr
        · rw [if_neg hi]
          refine ih _ ?_ hr
          rw [lookupId_append_single m i id mt h, if_neg hii]

theorem lookupId_addCandidates_cases (ids : List Int) (m : List (Int × MatchType))
    (mt : MatchType) (id : Int) (v : MatchType)
    (h : lookupId (addCandidates m ids mt) id = some v) :
    lookupId m id = some v ∨ (v = mt ∧ id ∈ ids) := by
  induction ids generalizing m with
  | nil => rw [addCandidates_nil] at h; exact Or.inl h
  | cons i ids ih =>
    rw [addCandidates_cons] at h
    by_cases hi : (lookupId m i).isSome
    · rw [if_pos hi] at h
      rcases ih m h with h' | ⟨hv, hmem⟩
      · exact Or.inl h'
      · exact Or.inr ⟨hv, List.mem_cons_of_mem i hmem⟩
    · rw [if_neg hi] at h
      rcases ih _ h with h' | ⟨hv, hmem⟩
      · cases hm : lookupId m id with
        | some w =>
          have := (lookupId_append_left m [(i, mt)] id w hm).symm.trans h'
          injection this with hw
          subst hw
          exact Or.inl rfl
        | none =>
          rw [lookupId_append_single m i id mt hm] at h'
          by_cases hii : i = id
          · rw [if_pos hii] at h'
            injection h' with hv
            exact Or.inr ⟨hv.symm, List.mem_cons.mpr (Or.inl hii.symm)⟩
          · rw [if_neg hii] at h'; cases h'
      · exact Or.inr ⟨hv, List.mem_cons_of_mem i hmem⟩

theorem searchMatches_eq_searchFold (t : Trie) (terms : List Char) (fz : Bool) :
    searchMatches t terms fz = searchFold t terms fz (semantic_expand_query terms) [] :=
  rfl

theorem searchFold_nil (t : Trie) (terms : List Char) (fz : Bool)
    (m : List (Int × MatchType)) : searchFold t terms fz [] m = m := rfl

theorem searchFold_cons (t : Trie) (terms q : List Char) (fz : Bool)
    (exps : List (List Char)) (m : List (Int × MatchType)) :
    searchFold t terms fz (q :: exps) m =
      searchFold t terms fz exps
        (if fz then
          addCandidates
            (addCandidates m (exact_prefix_search t q)
              (if q = terms then MatchType.exact else MatchType.semantic))
            (fuzzy_search_trie t q 2) MatchType.fuzzy
        else
          addCandidates m (exact_prefix_search t q)
            (if q = terms then MatchType.exact else MatchType.semantic)) := rfl

theorem searchFold_preserve (t : Trie) (terms : List Char) (fz : Bool)
    (exps : List (List Char)) (m : List (Int × MatchType)) (id : Int) (v : MatchType)
    (h : lookupId m id = some v) :
    lookupId (searchFold t terms fz exps m) id = some v := by
  induction exps generalizing m with
  | nil => rw [searchFold_nil]; exact h
  | cons q exps ih =>
    rw [searchFold_cons]
    apply ih
    cases fz with
    | false =>
      rw [if_neg (by simp)]
      exact lookupId_addCandidates_preserve _ _ _ _ _ h
    | true =>
      rw [if_pos rfl]
      exact lookupId_addCandidates_preserve _ _ _ _ _
        (lookupId_addCandidates_preserve _ _ _ _ _ h)

theorem searchFold_fuzzy_source (t : Trie) (terms : List Char)
    (exps : List (List Char)) (m : List (Int × MatchType)) (id : Int)
    (h : lookupId (searchFold t terms true exps m) id = some MatchType.fuzzy) :
    lookupId m id = some MatchType.fuzzy ∨
      ∃ q ∈ exps, id ∈ fuzzy_search_trie t q 2 := by
  induction exps generalizing m with
  | nil => rw [searchFold_nil] at h; exact Or.inl h
  | cons q exps ih =>
    rw [searchFold_cons, if_pos rfl] at h
    rcases ih _ h with h' | ⟨q', hq', hf⟩
    · rcases lookupId_addCandidates_cases _ _ _ _ _ h' with h2 | ⟨_, hmem⟩
      · rcases lookupId_addCandidates_cases _ _ _ _ _ h2 with h3 | ⟨hv, _⟩
        · exact Or.inl h3
        · exfalso
          by_cases hqt : q = terms
          · rw [if_pos hqt] at hv; exact MatchType.noConfusion hv
          · rw [if_neg hqt] at hv; exact MatchType.noConfusion hv
      · exact Or.inr ⟨q, List.mem_cons_self q exps, hmem⟩
    · exact Or.inr ⟨q', List.mem_cons_of_mem q hq', hf⟩

theorem searchFold_fuzzy_pos (t : Trie) (terms : List Char) (id : Int) :
    ∀ (exps : List (List Char)) (m : List (Int × MatchType)),
      (∀ q ∈ exps, id ∉ exact_prefix_search t q) →
      (∃ q ∈ exps, id ∈ fuzzy_search_trie t q 2) →
      lookupId m id = none →
      lookupId (searchFold t terms true exps m) id = some MatchType.fuzzy := by
  intro exps
  induction exps with
  | nil =>
    intro m _ hfz _
    rcases hfz with ⟨q, hq, _⟩
    cases hq
  | cons q exps ih =>
    intro m hex hfz h0
    rw [searchFold_cons, if_pos rfl]
    have hexq : id ∉ exact_prefix_search t q := hex q (List.mem_cons_self q exps)
    have hexr : ∀ q' ∈ exps, id ∉ exact_prefix_search t q' :=
      fun q' hq' => hex q' (List.mem_cons_of_mem q hq')
    have h1 : lookupId (addCandidates m (exact_prefix_search t q)
        (if q = terms then MatchType.exact else MatchType.semantic)) id = none :=
      lookupId_addCandidates_not_mem _ _ _ _ h0 hexq
    by_cases hm : id ∈ fuzzy_search_trie t q 2
    · exact searchFold_preserve t terms true exps _ id _
        (lookupId_addCandidates_mem _ _ _ _ h1 hm)
    · have h2 : lookupId (addCandidates (addCandidates m (exact_prefix_search t q)
          (if q = terms then MatchType.exact else MatchType.semantic))
          (fuzzy_search_trie t q 2) MatchType.fuzzy) id = none :=
        lookupId_addCandidates_not_mem _ _ _ _ h1 hm
      refine ih _ hexr ?_ h2
      rcases hfz with ⟨q', hq', hfq'⟩
      rcases List.mem_cons.mp hq' with he | hr
      · exact absurd (he ▸ hfq') hm
      · exact ⟨q', hr, hfq'⟩

/-- C4 (amended): with fuzzy matching on, `search` runs the fuzzy lookup
for every SemanticExpander expansion of the term, not only the literal
term: any id tagged `fuzzy` is a fuzzy hit of some expansion; conversely
an id hit fuzzily by some expansion but by no exact-prefix lookup is
tagged `fuzzy`; and a record already present in the candidate dict is
never reassigned (first write wins). -/
theorem C4_candidates_amended (t : Trie) (terms : List Char) (id : Int) :
    (lookupId (searchMatches t terms true) id = some MatchType.fuzzy →
      ∃ q ∈ semantic_expand_query terms, id ∈ fuzzy_search_trie t q 2) ∧
    ((∀ q ∈ semantic_expand_query terms, id ∉ exact_prefix_search t q) →
      (∃ q ∈ semantic_expand_query terms, id ∈ fuzzy_search_trie t q 2) →
      lookupId (searchMatches t terms true) id = some MatchType.fuzzy) ∧
    (∀ (m : List (Int × MatchType)) (ids : List Int) (mt v : MatchType),
      lookupId m id = some v → lookupId (addCandidates m ids mt) id = some v) := by
  refine ⟨?_, ?_, ?_⟩
  · intro h
    rw [searchMatches_eq_searchFold] at h
    rcases searchFold_fuzzy_source t terms _ [] id h with h' | h'
    · exact Option.noConfusion h'
    · exact h'
  · intro hex hfz
    rw [searchMatches_eq_searchFold]
    exact searchFold_fuzzy_pos t terms id _ [] hex hfz rfl
  · intro m ids mt v h
    exact lookupId_addCandidates_preserve ids m mt id v h

/-- C4 counterexample to "fuzzy runs for the literal term only": record 1
is named `imagz`, within distance 2 of the expansion `image` but not of
the literal `photo`; the code tags it `fuzzy`, while the spec-modelled
literal-only variant misses it entirely. -/
theorem C4_counterexample :
    lookupId (searchMatches engC4.root "photo".toList true) 1 =
      some MatchType.fuzzy ∧
    lookupId (searchMatchesClaimC4 engC4.root "photo".toList true) 1 = none := by
  constructor
  · decide
  · decide

/-- Witness for `C4_candidates_amended` at a concrete input (the
first-write-wins conjunct). -/
theorem C4_witness :
    lookupId [((5 : Int), MatchType.exact)] 5 = some MatchType.exact ∧
    lookupId (addCandidates [((5 : Int), MatchType.exact)] [5, 6] MatchType.fuzzy) 5 =
      some MatchType.exact :=
  ⟨by decide,
    (C4_candidates_amended engC4.root "photo".toList 5).2.2
      [((5 : Int), MatchType.exact)] [5, 6] MatchType.fuzzy MatchType.exact (by decide)⟩

/-!  ## C5: the filter parser on repeated filter kinds -/

theorem wordChar_ne_at (c : Char) (h : wordChar c = true) : c ≠ '@' := by
  intro he
  subst he
  exact absurd h (by decide)

theorem wordChar_toLower_ne (c : Char) (h : wordChar c = true) :
    Char.toLower c ≠ '@' := by
  intro he
  simp only [Char.toLower] at he
  by_cases hr : c.toNat ≥ 65 ∧ c.toNat ≤ 90
  · rw [if_pos hr] at he
    have hv : (c.toNat + 32).isValidChar := Or.inl (by omega)
    have ht : (Char.ofNat (c.toNat + 32)).toNat = c.toNat + 32 := by
      rw [Char.ofNat, dif_pos hv]
      rfl
    have h64 := congrArg Char.toNat he
    rw [ht] at h64
    have hat : ('@' : Char).toNat = 64 := by decide
    omega
  · rw [if_neg hr] at he
    subst he
    exact absurd h (by decide)

theorem wordChar_not_space (c : Char) (h : wordChar c = true) : pySpace c = false := by
  cases hps : pySpace c
  · rfl
  · exfalso
    simp only [pySpace, Bool.or_eq_true, decide_eq_true_eq] at hps
    rcases hps with ((((h1 | h1) | h1) | h1) | h1) | h1 <;>
      subst h1 <;> exact absurd h (by decide)

theorem ciStarts_cons (l : Char) (ls : List Char) (c : Char) (cs : List Char) :
    ciStarts (l :: ls) (c :: cs) = (decide (Char.toLower c = l) && ciStarts ls cs) :=
  rfl

theorem ciStarts_at_head_ne (kw : List Char) (c : Char) (s : List Char)
    (h : Char.toLower c ≠ '@') : ciStarts ('@' :: kw) (c :: s) = false := by
  rw [ciStarts_cons, decide_eq_false h, Bool.false_and]

theorem isPrefixOf_cons_cons (a b : Char) (as bs : List Char) :
    List.isPrefixOf (a :: as) (b :: bs) = ((a == b) && List.isPrefixOf as bs) := rfl

theorem isPrefixOf_at_head_ne (as : List Char) (c : Char) (s : List Char)
    (h : c ≠ '@') : List.isPrefixOf ('@' :: as) (c :: s) = false := by
  rw [isPrefixOf_cons_cons, beq_eq_false_iff_ne.mpr (fun he => h he.symm),
    Bool.false_and]

theorem isPrefixOf_append_same (x y z : List Char) :
    List.isPrefixOf (x ++ y) (x ++ z) = List.isPrefixOf y z := by
  induction x with
  | nil => rfl
  | cons c x ih =>
    rw [List.cons_append, List.cons_append, isPrefixOf_cons_cons, ih]
    simp

theorem isPrefixOf_append_self (x t : List Char) :
    List.isPrefixOf x (x ++ t) = true := by
  have h := isPrefixOf_append_same x [] t
  rw [List.append_nil] at h
  rw [h]
  exact List.isPrefixOf_nil_left

theorem reSearch_eq_none {α : Type} (m : List Char → Option α) :
    ∀ s : List Char, (∀ s', s' <:+ s → m s' = none) → reSearch m s = none := by
  intro s
  induction s with
  | nil => intro h; exact h [] (List.suffix_refl [])
  | cons c rest ih =>
    intro h
    show (match m (c :: rest) with
      | some r => some r
      | none => reSearch m rest) = none
    rw [h (c :: rest) (List.suffix_refl _)]
    exact ih fun s' hs' => h s' (hs'.trans (List.suffix_cons c rest))

theorem reSearch_cons_some {α : Type} (m : List Char → Option α) (c : Char)
    (s : List Char) (r : α) (h : m (c :: s) = some r) :
    reSearch m (c :: s) = some r := by
  show (match m (c :: s) with
    | some r => some r
    | none => reSearch m s) = some r
  rw [h]

theorem scan_words (P : List Char → Prop)
    (hword : ∀ c s, wordChar c = true → P (c :: s)) :
    ∀ (a : List Char), (∀ c ∈ a, wordChar c = true) →
      ∀ (tl : List Char), (∀ s', s' <:+ tl → P s') →
      ∀ s', s' <:+ (a ++ tl) → P s' := by
  intro a
  induction a with
  | nil => intro _ tl htl s' hs'; exact htl s' hs'
  | cons c a ih =>
    intro hw tl htl s' hs'
    rw [List.cons_append] at hs'
    rcases List.suffix_cons_iff.mp hs' with rfl | hs2
    · exact hword c _ (hw c (List.mem_cons_self c a))
    · exact ih (fun c' hc' => hw c' (List.mem_cons_of_mem c hc')) tl htl s' hs2

theorem scan_ty (P : List Char → Prop) (X : List Char)
    (hX : ∀ s', s' <:+ X → P s')
    (h0 : P ('@' :: 't' :: 'y' :: 'p' :: 'e' :: ':' :: X))
    (h1 : P ('t' :: 'y' :: 'p' :: 'e' :: ':' :: X))
    (h2 : P ('y' :: 'p' :: 'e' :: ':' :: X))
    (h3 : P ('p' :: 'e' :: ':' :: X))
    (h4 : P ('e' :: ':' :: X))
    (h5 : P (':' :: X)) :
    ∀ s', s' <:+ ('@' :: 't' :: 'y' :: 'p' :: 'e' :: ':' :: X) → P s' := by
  intro s' hs'
  rcases List.suffix_cons_iff.mp hs' with rfl | hs'
  · exact h0
  rcases List.suffix_cons_iff.mp hs' with rfl | hs'
  · exact h1
  rcases List.suffix_cons_iff.mp hs' with rfl | hs'
  · exact h2
  rcases List.suffix_cons_iff.mp hs' with rfl | hs'
  · exact h3
  rcases List.suffix_cons_iff.mp hs' with rfl | hs'
  · exact h4
  rcases List.suffix_cons_iff.mp hs' with rfl | hs'
  · exact h5
  exact hX s' hs'

theorem takeWhile_append_stop (a : List Char) (x : Char) (rest : List Char)
    (ha : ∀ c ∈ a, wordChar c = true) (hx : wordChar x = false) :
    (a ++ x :: rest).takeWhile wordChar = a := by
  induction a with
  | nil =>
    rw [List.nil_append]
    exact List.takeWhile_cons_of_neg (by simp [hx])
  | cons c a ih =>
    rw [List.cons_append,
      List.takeWhile_cons_of_pos (ha c (List.mem_cons_self c a)),
      ih (fun c' hc' => ha c' (List.mem_cons_of_mem c hc'))]

theorem replaceDel_nil (pat : List Char) : replaceDel [] pat = [] := by
  rw [replaceDel]

theorem replaceDel_pos (c : Char) (rest pat : List Char)
    (h : pat ≠ [] ∧ pat.isPrefixOf (c :: rest) = true) :
    replaceDel (c :: rest) pat = replaceDel ((c :: rest).drop pat.length) pat := by
  rw [replaceDel, dif_pos h]

theorem replaceDel_neg (c : Char) (rest pat : List Char)
    (h : ¬ (pat ≠ [] ∧ pat.isPrefixOf (c :: rest) = true)) :
    replaceDel (c :: rest) pat = c :: replaceDel rest pat := by
  rw [replaceDel, dif_neg h]

theorem replaceDel_no_occ : ∀ (s pat : List Char), pat ≠ [] →
    (∀ s', s' <:+ s → s' ≠ [] → pat.isPrefixOf s' = false) →
    replaceDel s pat = s := by
  intro s
  induction s with
  | nil => intro pat _ _; rw [replaceDel_nil]
  | cons c rest ih =>
    intro pat hp hno
    have hng : ¬ (pat ≠ [] ∧ pat.isPrefixOf (c :: rest) = true) := by
      rintro ⟨-, hpre⟩
      rw [hno (c :: rest) (List.suffix_refl _) (List.cons_ne_nil c rest)] at hpre
      cases hpre
    rw [replaceDel_neg c rest pat hng,
      ih pat hp (fun s' hs' hne => hno s' (hs'.trans (List.suffix_cons c rest)) hne)]

theorem scan_words_only (P : List Char → Prop)
    (hword : ∀ c s, wordChar c = true → P (c :: s)) (hnil : P []) :
    ∀ (a : List Char), (∀ c ∈ a, wordChar c = true) → ∀ s', s' <:+ a → P s' := by
  intro a
  induction a with
  | nil =>
    intro _ s' hs'
    rcases List.suffix_nil.mp hs' with rfl
    exact hnil
  | cons c a ih =>
    intro hw s' hs'
    rcases List.suffix_cons_iff.mp hs' with rfl | hs2
    · exact hword c _ (hw c (List.mem_cons_self c a))
    · exact ih (fun c' hc' => hw c' (List.mem_cons_of_mem c hc')) s' hs2

theorem replaceDel_TY_query (a b : List Char)
    (hbw : ∀ c ∈ b, wordChar c = true)
    (hnp : List.isPrefixOf a b = false) :
    replaceDel
        ('@' :: 't' :: 'y' :: 'p' :: 'e' :: ':' ::
          (a ++ ' ' :: '@' :: 't' :: 'y' :: 'p' :: 'e' :: ':' :: b))
        ('@' :: 't' :: 'y' :: 'p' :: 'e' :: ':' :: a) =
      ' ' :: '@' :: 't' :: 'y' :: 'p' :: 'e' :: ':' :: b := by
  have hpre : List.isPrefixOf ('@' :: 't' :: 'y' :: 'p' :: 'e' :: ':' :: a)
      ('@' :: 't' :: 'y' :: 'p' :: 'e' :: ':' ::
        (a ++ ' ' :: '@' :: 't' :: 'y' :: 'p' :: 'e' :: ':' :: b)) = true :=
    isPrefixOf_append_self ('@' :: 't' :: 'y' :: 'p' :: 'e' :: ':' :: a)
      (' ' :: '@' :: 't' :: 'y' :: 'p' :: 'e' :: ':' :: b)
  rw [replaceDel_pos _ _ _ ⟨List.cons_ne_nil _ _, hpre⟩]
  have hdrop : List.drop ('@' :: 't' :: 'y' :: 'p' :: 'e' :: ':' :: a).length
      ('@' :: 't' :: 'y' :: 'p' :: 'e' :: ':' ::
        (a ++ ' ' :: '@' :: 't' :: 'y' :: 'p' :: 'e' :: ':' :: b)) =
      ' ' :: '@' :: 't' :: 'y' :: 'p' :: 'e' :: ':' :: b :=
    List.drop_left ('@' :: 't' :: 'y' :: 'p' :: 'e' :: ':' :: a)
      (' ' :: '@' :: 't' :: 'y' :: 'p' :: 'e' :: ':' :: b)
  rw [hdrop]
  apply replaceDel_no_occ _ _ (List.cons_ne_nil _ _)
  intro s' hs' hne
  rcases List.suffix_cons_iff.mp hs' with rfl | hs2
  · rfl
  refine scan_ty
    (fun s'' => s'' ≠ [] →
      List.isPrefixOf ('@' :: 't' :: 'y' :: 'p' :: 'e' :: ':' :: a) s'' = false)
    b ?_ ?_ (fun _ => rfl) (fun _ => rfl) (fun _ => rfl) (fun _ => rfl)
    (fun _ => rfl) s' hs2 hne
  · refine scan_words_only _ ?_ (fun hc => absurd rfl hc) b hbw
    intro c s hw _
    exact isPrefixOf_at_head_ne ('t' :: 'y' :: 'p' :: 'e' :: ':' :: a) c s
      (wordChar_ne_at c hw)
  · intro _
    have hsame := isPrefixOf_append_same ('@' :: 't' :: 'y' :: 'p' :: 'e' :: ':' :: []) a b
    rw [hnp] at hsame
    exact hsame

theorem pyStrip_space_TY (b : List Char) (hb : b ≠ [])
    (hbw : ∀ c ∈ b, wordChar c = true) :
    pyStrip (' ' :: '@' :: 't' :: 'y' :: 'p' :: 'e' :: ':' :: b) =
      '@' :: 't' :: 'y' :: 'p' :: 'e' :: ':' :: b := by
  unfold pyStrip
  rw [List.dropWhile_cons_of_pos (by decide : pySpace ' ' = true),
    List.dropWhile_cons_of_neg (by decide : ¬ (pySpace '@' = true))]
  rcases hbr : b.reverse with _ | ⟨c, bs⟩
  · exact absurd (by rw [← List.reverse_reverse b, hbr]; rfl) hb
  · have hrev : ('@' :: 't' :: 'y' :: 'p' :: 'e' :: ':' :: b).reverse =
        c :: (bs ++ (':' :: 'e' :: 'p' :: 'y' :: 't' :: '@' :: [])) := by
      rw [show ('@' :: 't' :: 'y' :: 'p' :: 'e' :: ':' :: b) =
        (('@' :: 't' :: 'y' :: 'p' :: 'e' :: ':' :: []) ++ b) from rfl]
      rw [List.reverse_append, hbr]
      rfl
    rw [hrev]
    have hc : wordChar c = true := by
      refine hbw c (List.mem_reverse.mp ?_)
      rw [hbr]
      exact List.mem_cons_self c bs
    rw [List.dropWhile_cons_of_neg (by simp [wordChar_not_space c hc])]
    rw [← hrev, List.reverse_reverse]

theorem pySplitAux_nil (cur : List Char) :
    pySplitAux cur [] = if cur.isEmpty = true then [] else [cur.reverse] := rfl

theorem pySplitAux_cons (cur : List Char) (c : Char) (l : List Char) :
    pySplitAux cur (c :: l) =
      if pySpace c = true then
        (if cur.isEmpty = true then pySplitAux [] l
         else cur.reverse :: pySplitAux [] l)
      else pySplitAux (c :: cur) l := rfl

theorem pySplitAux_no_space : ∀ (l cur : List Char), (∀ c ∈ l, pySpace c = false) →
    pySplitAux cur l =
      if (cur.isEmpty && l.isEmpty) = true then [] else [cur.reverse ++ l] := by
  intro l
  induction l with
  | nil =>
    intro cur _
    cases hc : cur.isEmpty
    · rw [pySplitAux_nil, hc]; simp
    · rw [pySplitAux_nil, hc]; simp
  | cons c l ih =>
    intro cur hns
    have hc : pySpace c = false := hns c (List.mem_cons_self c l)
    rw [pySplitAux_cons, hc, if_neg (by simp)]
    rw [ih (c :: cur) (fun c' hc' => hns c' (List.mem_cons_of_mem c hc'))]
    rw [show (c :: cur).isEmpty = false from rfl, Bool.false_and]
    rw [show (c :: l).isEmpty = false from rfl, Bool.and_false]
    rw [if_neg (by simp), if_neg (by simp)]
    rw [List.reverse_cons, List.append_assoc]
    rfl

theorem pySplit_single (l : List Char) (hl : l.isEmpty = false)
    (h : ∀ c ∈ l, pySpace c = false) : pySplit l = [l] := by
  unfold pySplit
  rw [pySplitAux_no_space l [] h]
  rw [show (([] : List Char).isEmpty) = true from rfl, Bool.true_and, hl]
  rw [if_neg (by simp)]
  rw [List.reverse_nil, List.nil_append]

theorem ciStarts_ty_self (s : List Char) :
    ciStarts ('@' :: 't' :: 'y' :: 'p' :: 'e' :: ':' :: [])
      ('@' :: 't' :: 'y' :: 'p' :: 'e' :: ':' :: s) = true := rfl

theorem matchWordAt_TY_pos (tail run : List Char)
    (h : tail.takeWhile wordChar = run) (hrun : run.isEmpty = false) :
    matchWordAt ('@' :: 't' :: 'y' :: 'p' :: 'e' :: ':' :: [])
        ('@' :: 't' :: 'y' :: 'p' :: 'e' :: ':' :: tail) =
      some { g0 := '@' :: 't' :: 'y' :: 'p' :: 'e' :: ':' :: run, g1 := run } := by
  unfold matchWordAt
  rw [if_pos (ciStarts_ty_self tail)]
  have hd : List.drop ('@' :: 't' :: 'y' :: 'p' :: 'e' :: ':' :: ([] : List Char)).length
      ('@' :: 't' :: 'y' :: 'p' :: 'e' :: ':' :: tail) = tail :=
    List.drop_left ('@' :: 't' :: 'y' :: 'p' :: 'e' :: ':' :: []) tail
  have htk : List.take ('@' :: 't' :: 'y' :: 'p' :: 'e' :: ':' :: ([] : List Char)).length
      ('@' :: 't' :: 'y' :: 'p' :: 'e' :: ':' :: tail) =
      '@' :: 't' :: 'y' :: 'p' :: 'e' :: ':' :: [] :=
    List.take_left ('@' :: 't' :: 'y' :: 'p' :: 'e' :: ':' :: []) tail
  rw [hd, h]
  dsimp only
  rw [hrun]
  rw [if_neg (by simp)]
  rw [htk]
  rfl

theorem matchWordAt_head_ne (kwr : List Char) (c : Char) (s : List Char)
    (h : Char.toLower c ≠ '@') : matchWordAt ('@' :: kwr) (c :: s) = none := by
  unfold matchWordAt
  rw [ciStarts_at_head_ne kwr c s h]
  rw [if_neg (by simp)]

theorem matchSizeAt_head_ne (c : Char) (s : List Char)
    (h : Char.toLower c ≠ '@') : matchSizeAt (c :: s) = none := by
  unfold matchSizeAt
  rw [ciStarts_at_head_ne _ c s h]
  rw [if_neg (by simp)]

theorem matchDateAt_head_ne (c : Char) (s : List Char)
    (h : Char.toLower c ≠ '@') : matchDateAt (c :: s) = none := by
  unfold matchDateAt
  rw [ciStarts_at_head_ne _ c s h]
  rw [if_neg (by simp)]

theorem ext_none_ty_b (b : List Char) (hbw : ∀ c ∈ b, wordChar c = true) :
    ∀ s', s' <:+ ('@' :: 't' :: 'y' :: 'p' :: 'e' :: ':' :: b) →
      matchWordAt ('@' :: 'e' :: 'x' :: 't' :: ':' :: []) s' = none := by
  refine scan_ty _ b ?_ rfl rfl rfl rfl rfl rfl
  refine scan_words_only
    (fun s' => matchWordAt ('@' :: 'e' :: 'x' :: 't' :: ':' :: []) s' = none)
    ?_ rfl b hbw
  intro c s hw
  exact matchWordAt_head_ne _ c s (wordChar_toLower_ne c hw)

theorem size_none_ty_b (b : List Char) (hbw : ∀ c ∈ b, wordChar c = true) :
    ∀ s', s' <:+ ('@' :: 't' :: 'y' :: 'p' :: 'e' :: ':' :: b) →
      matchSizeAt s' = none := by
  refine scan_ty _ b ?_ rfl rfl rfl rfl rfl rfl
  refine scan_words_only (fun s' => matchSizeAt s' = none) ?_ rfl b hbw
  intro c s hw
  exact matchSizeAt_head_ne c s (wordChar_toLower_ne c hw)

theorem date_none_ty_b (b : List Char) (hbw : ∀ c ∈ b, wordChar c = true) :
    ∀ s', s' <:+ ('@' :: 't' :: 'y' :: 'p' :: 'e' :: ':' :: b) →
      matchDateAt s' = none := by
  refine scan_ty _ b ?_ rfl rfl rfl rfl rfl rfl
  refine scan_words_only (fun s' => matchDateAt s' = none) ?_ rfl b hbw
  intro c s hw
  exact matchDateAt_head_ne c s (wordChar_toLower_ne c hw)

/-- The parser on the schema `@type:a @type:b`: the first value is kept,
the second token survives (general lemma behind the C5 results). -/
theorem parse_repeat_ty (a b : List Char)
    (ha : a.isEmpty = false) (hb : b.isEmpty = false)
    (haw : ∀ c ∈ a, wordChar c = true) (hbw : ∀ c ∈ b, wordChar c = true)
    (hnp : List.isPrefixOf a b = false) :
    parse_advanced_filters
        ('@' :: 't' :: 'y' :: 'p' :: 'e' :: ':' ::
          (a ++ ' ' :: '@' :: 't' :: 'y' :: 'p' :: 'e' :: ':' :: b)) =
      some { type := some (lowerStr a), size_min := none, size_max := none,
             date_from := none, date_to := none, extension := none,
             search_terms := ['@' :: 't' :: 'y' :: 'p' :: 'e' :: ':' :: b] } := by
  have hbne : b ≠ [] := by
    intro he
    rw [he] at hb
    cases hb
  have hrun : (a ++ ' ' :: '@' :: 't' :: 'y' :: 'p' :: 'e' :: ':' :: b).takeWhile
      wordChar = a :=
    takeWhile_append_stop a ' ' _ haw (by decide)
  have hTy : reSearch (matchWordAt ('@' :: 't' :: 'y' :: 'p' :: 'e' :: ':' :: []))
      ('@' :: 't' :: 'y' :: 'p' :: 'e' :: ':' ::
        (a ++ ' ' :: '@' :: 't' :: 'y' :: 'p' :: 'e' :: ':' :: b)) =
      some { g0 := '@' :: 't' :: 'y' :: 'p' :: 'e' :: ':' :: a, g1 := a } :=
    reSearch_cons_some _ _ _ _ (matchWordAt_TY_pos _ a hrun ha)
  have hq1 : pyStrip (replaceDel
      ('@' :: 't' :: 'y' :: 'p' :: 'e' :: ':' ::
        (a ++ ' ' :: '@' :: 't' :: 'y' :: 'p' :: 'e' :: ':' :: b))
      ('@' :: 't' :: 'y' :: 'p' :: 'e' :: ':' :: a)) =
      '@' :: 't' :: 'y' :: 'p' :: 'e' :: ':' :: b := by
    rw [replaceDel_TY_query a b hbw hnp]
    exact pyStrip_space_TY b hbne hbw
  have hExt : reSearch (matchWordAt ('@' :: 'e' :: 'x' :: 't' :: ':' :: []))
      ('@' :: 't' :: 'y' :: 'p' :: 'e' :: ':' :: b) = none :=
    reSearch_eq_none _ _ (ext_none_ty_b b hbw)
  have hSize : reSearch matchSizeAt ('@' :: 't' :: 'y' :: 'p' :: 'e' :: ':' :: b) =
      none :=
    reSearch_eq_none _ _ (size_none_ty_b b hbw)
  have hDate : reSearch matchDateAt ('@' :: 't' :: 'y' :: 'p' :: 'e' :: ':' :: b) =
      none :=
    reSearch_eq_none _ _ (date_none_ty_b b hbw)
  have hsplit : pySplit ('@' :: 't' :: 'y' :: 'p' :: 'e' :: ':' :: b) =
      ['@' :: 't' :: 'y' :: 'p' :: 'e' :: ':' :: b] := by
    refine pySplit_single _ rfl ?_
    intro c hc
    simp only [List.mem_cons] at hc
    rcases hc with rfl | rfl | rfl | rfl | rfl | rfl | hc
    · rfl
    · rfl
    · rfl
    · rfl
    · rfl
    · rfl
    · exact wordChar_not_space c (hbw c hc)
  unfold parse_advanced_filters
  rw [hTy]
  dsimp only
  rw [hq1]
  rw [hExt]
  dsimp only
  rw [hSize]
  dsimp only
  rw [hDate]
  dsimp only
  rw [hsplit]

/-- C5 (amended): when the same filter kind occurs twice, the FIRST
occurrence wins - `re.search` returns the leftmost match, so its value is
kept and its `group(0)` text removed - while the later occurrence is left
in the text and survives into `search_terms` (its value never overwrites
the first).  Shown for a query of the schema `@type:a @type:b` with `a`,
`b` nonempty words and `a` not a prefix of `b` (so `str.replace` cannot
also hit the second token). -/
theorem C5_first_match_wins_amended (a b : List Char)
    (ha : a.isEmpty = false) (hb : b.isEmpty = false)
    (haw : ∀ c ∈ a, wordChar c = true) (hbw : ∀ c ∈ b, wordChar c = true)
    (hnp : List.isPrefixOf a b = false) :
    parse_advanced_filters
        ('@' :: 't' :: 'y' :: 'p' :: 'e' :: ':' ::
          (a ++ ' ' :: '@' :: 't' :: 'y' :: 'p' :: 'e' :: ':' :: b)) =
      some { type := some (lowerStr a), size_min := none, size_max := none,
             date_from := none, date_to := none, extension := none,
             search_terms := ['@' :: 't' :: 'y' :: 'p' :: 'e' :: ':' :: b] } :=
  parse_repeat_ty a b ha hb haw hbw hnp

/-- C5 counterexample to "the last occurrence wins and every recognized
token is removed": in `@type:a @type:b` the parser keeps the FIRST value
`a`, and the second token `@type:b` is not removed - it becomes a search
term. -/
theorem C5_counterexample :
    parse_advanced_filters "@type:a @type:b".toList =
      some { type := some ['a'], size_min := none, size_max := none,
             date_from := none, date_to := none, extension := none,
             search_terms := ["@type:b".toList] } ∧
    some ['a'] ≠ some "b".toList ∧
    "@type:b".toList ∈ ["@type:b".toList] := by
  refine ⟨?_, by decide, List.mem_cons_self _ _⟩
  exact parse_repeat_ty ['a'] ['b'] rfl rfl (by decide) (by decide) (by decide)

/-- Witness for `C5_first_match_wins_amended` at `a = "a"`, `b = "b"`. -/
theorem C5_witness :
    (['a'].isEmpty = false) ∧ (['b'].isEmpty = false) ∧
    (∀ c ∈ ['a'], wordChar c = true) ∧ (∀ c ∈ ['b'], wordChar c = true) ∧
    (List.isPrefixOf ['a'] ['b'] = false) ∧
    parse_advanced_filters
        ('@' :: 't' :: 'y' :: 'p' :: 'e' :: ':' ::
          (['a'] ++ ' ' :: '@' :: 't' :: 'y' :: 'p' :: 'e' :: ':' :: ['b'])) =
      some { type := some (lowerStr ['a']), size_min := none, size_max := none,
             date_from := none, date_to := none, extension := none,
             search_terms := ['@' :: 't' :: 'y' :: 'p' :: 'e' :: ':' :: ['b']] } :=
  ⟨rfl, rfl, by decide, by decide, by decide,
    C5_first_match_wins_amended ['a'] ['b'] rfl rfl (by decide) (by decide)
      (by decide)⟩

end TrieSpec
